import Mathlib

/-!
# is_route: a verification development

Shallow embedding of `src/is_route.c`.

Conventions of the embedding.

* A character array (`ReadBuffer`, the `line` handed to the parser) is the list
  of its cells, NUL cells included; `cstr` gives the C string it holds.  A name
  in the registry (the arguments `name_1`, `name_2`, the `name` field of a
  node) is the list of its characters before the terminating NUL, so `strcmp`
  on names is equality of lists.
* A pointer to a `Node` is `Option Nat`: `none` is `NULL`, `some i` is the
  address of the `i`-th node ever allocated.  The heap is the list of all
  allocated nodes; `malloc` appends a node and is taken to succeed.
* The input `FILE *` is the list of the bytes not yet read; `fread` of a block
  delivers the next `READ_BLOCK_LEN` bytes, or all that are left when fewer are.
* Strings are lists of any length: the sizes of the caller's `line` array
  (`MAX_LINE_LEN`) and of the name arrays (`MAX_NODE_NAME + 1`) are not
  checked by the embedding.
* A loop that chases pointers takes a fuel argument and answers `none` when
  the fuel runs out; dereferencing `NULL` also answers `none`.
* An out-parameter is returned next to the return code, as `none` when the
  function did not write it.
-/

namespace IsRoute

/-! ## Constants and return codes -/

def MAX_NODE_NAME : Nat := 30
def READ_BUF_SIZE : Nat := 256
def READ_BLOCK_LEN : Nat := 100
def MAX_LINE_LEN : Nat := (MAX_NODE_NAME * 2) + 10

inductive RETURN_CODE where
  | RC_NO_ERROR
  | RC_EOF
  | RC_NO_DELIMITER
  | RC_STR_TOO_LONG
  | RC_NO_MEM
  | RC_NO_EXIST
  | RC_FILE_NOT_FOUND
  deriving DecidableEq, Repr

open RETURN_CODE

/-! ## The C library functions the program calls -/

/-- The terminating character of a C string. -/
def NUL : Char := Char.ofNat 0

/-- Library `strlen` on a character array: the number of cells before the first NUL. -/
def strlen : List Char → Nat
  | [] => 0
  | c :: cs => if c = NUL then 0 else strlen cs + 1

/-- Library `strstr` with a one-character needle, as at both call sites of the
program (`"\n"` and `","`): the offset of the first occurrence of `ch` before
the first NUL, `none` for a `NULL` result. -/
def strstr (ch : Char) : List Char → Option Nat
  | [] => none
  | c :: cs =>
    if c = NUL then none
    else if c = ch then some 0
    else (strstr ch cs).map (· + 1)

/-- Store `data` into the array `buf` from offset `off` on (the effect of
`fread`, `memmove` or a single assignment on the array). -/
def writeAt (buf : List Char) (off : Nat) (data : List Char) : List Char :=
  buf.take off ++ data ++ buf.drop (off + data.length)

/-- The C string held in a character array: the cells before the first NUL. -/
def cstr (buf : List Char) : List Char :=
  buf.takeWhile (· ≠ NUL)

/-- The C string left in `dst` by `strcpy(dst, src)`. -/
def strcpy (src : List Char) : List Char :=
  cstr src

/-- The C string left in `dst` by `strncpy(dst, src, n); dst[n] = 0`: the first `n`
cells of `src`, cut at the first NUL among them. -/
def strncpy (src : List Char) (n : Nat) : List Char :=
  cstr (src.take n)

/-! ## Stream tokenizer -/

/-- The initial content of `ReadBuffer`: `READ_BUF_SIZE` zero cells. -/
def ReadBuffer0 : List Char := List.replicate READ_BUF_SIZE NUL

/-- Result of one `read_next_line` call: the return code, the line written to the
caller (when one was written), the new `ReadBuffer` and the unread rest of the file. -/
structure ReadResult where
  rc : RETURN_CODE
  line : Option (List Char)
  ReadBuffer : List Char
  file : List Char
  deriving DecidableEq, Repr

/-- The tail of `read_next_line`, lines 87-94: copy the line that ends at offset
`new_line_ptr` out of `ReadBuffer` and erase it from the buffer. -/
def copy_line (ReadBuffer file : List Char) (new_line_ptr : Nat) : ReadResult :=
  let line := strncpy ReadBuffer new_line_ptr
  let rest := ReadBuffer.drop (new_line_ptr + 1)
  { rc := RC_NO_ERROR
    line := some line
    ReadBuffer := writeAt ReadBuffer 0 (rest.take (strlen rest + 1))
    file := file }

/-- Function `read_next_line` of the source, lines 65-95. -/
def read_next_line (ReadBuffer file : List Char) : ReadResult :=
  match strstr '\n' ReadBuffer with
  | some new_line_ptr => copy_line ReadBuffer file new_line_ptr
  | none =>
    let cur_length := strlen ReadBuffer
    if cur_length + 1 + READ_BLOCK_LEN > READ_BUF_SIZE then
      { rc := RC_NO_DELIMITER, line := none, ReadBuffer := ReadBuffer, file := file }
    else
      let block := file.take READ_BLOCK_LEN
      let read_bytes := block.length
      let ReadBuffer1 := writeAt ReadBuffer (strlen ReadBuffer) block
      let file1 := file.drop READ_BLOCK_LEN
      match strstr '\n' ReadBuffer1 with
      | none => { rc := RC_EOF, line := none, ReadBuffer := ReadBuffer1, file := file1 }
      | some new_line_ptr =>
        if read_bytes = 0 then
          { rc := RC_EOF, line := none, ReadBuffer := ReadBuffer1, file := file1 }
        else
          copy_line (writeAt ReadBuffer1 (cur_length + read_bytes) [NUL]) file1 new_line_ptr

/-- The input stream made of the given records, each followed by a newline. -/
def stream_of (records : List (List Char)) : List Char :=
  (records.map (fun r => r ++ ['\n'])).flatten

/-- The tokenizer state holds exactly the stream of `records`: `ReadBuffer` has
its full size and holds a C string which, followed by the unread rest of the
file, is the records with their newlines. -/
def BufferHolds (ReadBuffer file : List Char) (records : List (List Char)) : Prop :=
  ReadBuffer.length = READ_BUF_SIZE ∧
  ∃ s rest, ReadBuffer = s ++ NUL :: rest ∧ NUL ∉ s ∧ s ++ file = stream_of records

/-! ## Record parser -/

/-- Function `extract_names_from_line` of the source, lines 97-131: the return
code and, when they were written, `name_1` and `name_2`.  The argument is the
character array `line` points to; the record is the C string it holds. -/
def extract_names_from_line (line : List Char) :
    RETURN_CODE × Option (List Char × List Char) :=
  match strstr ',' line with
  | none => (RC_NO_DELIMITER, none)
  | some delimiter =>
    if delimiter > MAX_NODE_NAME ∨ strlen (line.drop (delimiter + 1)) > MAX_NODE_NAME then
      (RC_STR_TOO_LONG, none)
    else
      (RC_NO_ERROR, some (strncpy line delimiter, strcpy (line.drop (delimiter + 1))))

/-! ## Partition registry -/

/-- A pointer to a node: `none` is `NULL`. -/
abbrev Ptr := Option Nat

/-- Type `Node` of the source, lines 12-18. -/
structure Node where
  name : List Char
  route : Ptr
  next : Ptr
  deriving DecidableEq, Repr

/-- The registry state: the allocated nodes and the global `RoutesList`. -/
structure State where
  heap : List Node
  RoutesList : Ptr
  deriving DecidableEq, Repr

/-- The state at program start: nothing allocated, `RoutesList = NULL`. -/
def State.empty : State := { heap := [], RoutesList := none }

/-- The assignment `p->route = v`. -/
def setRoute (heap : List Node) (p : Nat) (v : Ptr) : List Node :=
  heap.modify (fun nd => { nd with route := v }) p

/-- The assignment `p->next = v`. -/
def setNext (heap : List Node) (p : Nat) (v : Ptr) : List Node :=
  heap.modify (fun nd => { nd with next := v }) p

/-- The inner loop of `find_node_in_routes_list`, lines 141-148: walk the member
chain from `_node`, overwriting the pair `(*node, *route)` at every match. -/
def find_in_route (heap : List Node) (name : List Char) (_route : Nat) :
    Nat → Ptr → Ptr × Ptr → Option (Ptr × Ptr)
  | _, none, out => some out
  | 0, some _, _ => none
  | fuel + 1, some _node, out =>
    match heap[_node]? with
    | none => none
    | some nd =>
      find_in_route heap name _route fuel nd.route
        (if nd.name = name then (some _node, some _route) else out)

/-- The outer loop of `find_node_in_routes_list`, lines 139-149: walk the group
chain from `_route`. -/
def find_in_list (heap : List Node) (name : List Char) :
    Nat → Ptr → Ptr × Ptr → Option (Ptr × Ptr)
  | _, none, out => some out
  | 0, some _, _ => none
  | fuel + 1, some _route, out =>
    match heap[_route]? with
    | none => none
    | some r =>
      match find_in_route heap name _route fuel (some _route) out with
      | none => none
      | some out1 => find_in_list heap name fuel r.next out1

/-- Function `find_node_in_routes_list` of the source, lines 133-150: the pair
`(*node, *route)` it leaves, `none` when the scan does not finish within the fuel. -/
def find_node_in_routes_list (fuel : Nat) (st : State) (name : List Char) :
    Option (Ptr × Ptr) :=
  find_in_list st.heap name fuel st.RoutesList (none, none)

/-- Function `add_new_route` of the source, lines 152-170: the new state and the
returned pointer. -/
def add_new_route (st : State) (name : List Char) : State × Ptr :=
  let new_route := st.heap.length
  ({ heap := st.heap ++ [{ name := name, route := none, next := st.RoutesList }]
     RoutesList := some new_route },
   some new_route)

/-- Function `add_node_to_route` of the source, lines 172-190. -/
def add_node_to_route (st : State) (name : List Char) (route : Ptr) :
    Option (RETURN_CODE × State) :=
  match route with
  | none => none
  | some r =>
    match st.heap[r]? with
    | none => none
    | some rnode =>
      let new_node := st.heap.length
      let heap1 := st.heap ++ [{ name := name, route := rnode.route, next := none }]
      some (RC_NO_ERROR, { st with heap := setRoute heap1 r (some new_node) })

/-- The first loop of `merge_routes`, lines 197-198: advance `_route` along the
group chain until `_route == route_2`; the value of `_route` at loop exit. -/
def merge_seek (heap : List Node) (route_2 : Nat) : Nat → Ptr → Option Nat
  | _, none => none
  | 0, some _route => if _route = route_2 then some _route else none
  | fuel + 1, some _route =>
    if _route = route_2 then some _route
    else
      match heap[_route]? with
      | none => none
      | some nd => merge_seek heap route_2 fuel nd.next

/-- The second loop of `merge_routes`, lines 202-203: advance `_route` along the
member chain until `_route->route == NULL`; the value of `_route` at loop exit. -/
def merge_last (heap : List Node) : Nat → Nat → Option Nat
  | 0, _ => none
  | fuel + 1, _route =>
    match heap[_route]? with
    | none => none
    | some nd =>
      match nd.route with
      | none => some _route
      | some nxt => merge_last heap fuel nxt

/-- Function `merge_routes` of the source, lines 192-206. -/
def merge_routes (fuel : Nat) (st : State) (route_1 route_2 : Ptr) : Option State :=
  match route_1, route_2 with
  | some r1, some r2 =>
    match merge_seek st.heap r2 fuel st.RoutesList with
    | none => none
    | some _route =>
      match st.heap[r2]? with
      | none => none
      | some n2 =>
        let heap1 := setNext st.heap _route n2.next
        let heap2 := setNext heap1 r2 none
        match merge_last heap2 fuel r2 with
        | none => none
        | some last =>
          match heap2[r1]? with
          | none => none
          | some n1 =>
            let heap3 := setRoute heap2 last n1.route
            let heap4 := setRoute heap3 r1 (some r2)
            some { st with heap := heap4 }
  | _, _ => none

/-- Function `add_pair_to_routes_list` of the source, lines 208-243. -/
def add_pair_to_routes_list (fuel : Nat) (st : State) (name_1 name_2 : List Char) :
    Option (RETURN_CODE × State) :=
  match find_node_in_routes_list fuel st name_1 with
  | none => none
  | some (node_1_ptr, route_1_ptr) =>
    match find_node_in_routes_list fuel st name_2 with
    | none => none
    | some (node_2_ptr, route_2_ptr) =>
      if node_1_ptr = none ∧ node_2_ptr = none then
        let (st1, route_1_ptr) := add_new_route st name_1
        match add_node_to_route st1 name_2 route_1_ptr with
        | none => none
        | some (_, st2) => some (RC_NO_ERROR, st2)
      else if node_1_ptr = none then
        match add_node_to_route st name_1 route_2_ptr with
        | none => none
        | some (_, st1) => some (RC_NO_ERROR, st1)
      else if node_2_ptr = none then
        match add_node_to_route st name_2 route_1_ptr with
        | none => none
        | some (_, st1) => some (RC_NO_ERROR, st1)
      else if route_1_ptr ≠ route_2_ptr then
        match merge_routes fuel st route_1_ptr route_2_ptr with
        | none => none
        | some st1 => some (RC_NO_ERROR, st1)
      else
        some (RC_NO_ERROR, st)

/-- Function `is_route` of the source, lines 264-294: the return code and the
value stored to `*result`, when one was stored. -/
def is_route (fuel : Nat) (st : State) (name_1 name_2 : List Char) :
    Option (RETURN_CODE × Option Int) :=
  match find_node_in_routes_list fuel st name_1 with
  | none => none
  | some (node_1, route_1) =>
    if node_1 = none then some (RC_NO_EXIST, none)
    else
      match find_node_in_routes_list fuel st name_2 with
      | none => none
      | some (node_2, route_2) =>
        if node_2 = none then some (RC_NO_EXIST, none)
        else if route_1 = route_2 then some (RC_NO_ERROR, some 1)
        else some (RC_NO_ERROR, some 0)

/-! ## Ingestion -/

/-- Result of `build_routes_list`: the return code and the final buffer, file
position and registry. -/
structure BuildResult where
  rc : RETURN_CODE
  ReadBuffer : List Char
  file : List Char
  st : State
  deriving DecidableEq, Repr

/-- Function `build_routes_list` of the source, lines 245-262.  The loop condition
assigns `ret_code` from `read_next_line` at every iteration, so the value the
body left in `ret_code` is overwritten there and does not reach the `return`.
The fuel bounds the iterations of the `while` loop and is handed on to the
pointer loops of the registry. -/
def build_routes_list : Nat → List Char → List Char → State → Option BuildResult
  | 0, _, _, _ => none
  | fuel + 1, ReadBuffer, file, st =>
    let r := read_next_line ReadBuffer file
    if r.rc = RC_NO_ERROR then
      match r.line with
      | none => none
      | some line =>
        let e := extract_names_from_line line
        if e.1 = RC_NO_ERROR then
          match e.2 with
          | none => none
          | some (name_1, name_2) =>
            match add_pair_to_routes_list fuel st name_1 name_2 with
            | none => none
            | some (_, st1) => build_routes_list fuel r.ReadBuffer r.file st1
        else
          build_routes_list fuel r.ReadBuffer r.file st
    else
      some { rc := r.rc, ReadBuffer := r.ReadBuffer, file := r.file, st := st }

/-- The results of `n` successive `read_next_line` calls (return code and line of
each), with the buffer and file position they leave. -/
def read_lines : Nat → List Char → List Char →
    List (RETURN_CODE × Option (List Char)) × List Char × List Char
  | 0, ReadBuffer, file => ([], ReadBuffer, file)
  | n + 1, ReadBuffer, file =>
    let r := read_next_line ReadBuffer file
    let rest := read_lines n r.ReadBuffer r.file
    ((r.rc, r.line) :: rest.1, rest.2)

/-- The input stream of Scenario A. -/
def scenario_A_stream : List Char :=
  "Melbourne,Sydney\nMelbourne,Jerusalem\nJerusalem,Haifa\nJerusalem,Boston\nBoston,Miami\nMiami,New-York\nNew-York,Los-Angeles\nHaifa,Tel-Aviv\n".toList

/-- The register calls of a list of pairs, applied in order from a given state. -/
def register_all (fuel : Nat) : State → List (List Char × List Char) → Option State
  | st, [] => some st
  | st, (name_1, name_2) :: rest =>
    match add_pair_to_routes_list fuel st name_1 name_2 with
    | none => none
    | some (_, st1) => register_all fuel st1 rest

/-! ## Registering a list of pairs and querying the result -/

/-- Register `pairs` in order from the empty partition, then ask `is_route` for
`name_1` and `name_2`. -/
def query (fuel : Nat) (pairs : List (List Char × List Char)) (name_1 name_2 : List Char) :
    Option (RETURN_CODE × Option Int) :=
  (register_all fuel State.empty pairs).bind (fun st => is_route fuel st name_1 name_2)

/-- Two names are joined by a chain of registered relations: the equivalence
generated by the registered pairs. -/
def Connected (pairs : List (List Char × List Char)) : List Char → List Char → Prop :=
  Relation.EqvGen (fun a b => (a, b) ∈ pairs)

/-- The registry after register(C,D), register(A,B), register(A,C), register(A,C):
the member chain of group `A` runs into the cycle C, D, B, C, ... -/
def cyclicState : State :=
  { heap := [{ name := "C".toList, route := some 1, next := none },
             { name := "D".toList, route := some 3, next := none },
             { name := "A".toList, route := some 0, next := some 0 },
             { name := "B".toList, route := some 0, next := none }]
    RoutesList := some 2 }

/-- An input stream whose two complete records fill the first block of
`READ_BLOCK_LEN` bytes exactly and whose last bytes, "X,Y", have no newline. -/
def fragment_stream : List Char :=
  "cccccccccccccccccccccccccccccc,dddddddddddddddddddddddddddddd\neeeeeeeeeeeeeeeeee,ffffffffffffffffff\nX,Y".toList

/-! ## The traversal order of the lookup -/

/-- The member chain from a pointer, in the order the inner loop of
`find_node_in_routes_list` visits it: each node's address and name. -/
def members (heap : List Node) : Nat → Ptr → Option (List (Nat × List Char))
  | _, none => some []
  | 0, some _ => none
  | fuel + 1, some _node =>
    match heap[_node]? with
    | none => none
    | some nd => (members heap fuel nd.route).map (fun l => (_node, nd.name) :: l)

/-- The groups from a pointer, in the order the outer loop of
`find_node_in_routes_list` visits them: each group's entry point with the member
chain that starts at it. -/
def groups (heap : List Node) : Nat → Ptr → Option (List (Nat × List (Nat × List Char)))
  | _, none => some []
  | 0, some _ => none
  | fuel + 1, some _route =>
    match heap[_route]? with
    | none => none
    | some r =>
      match members heap fuel (some _route) with
      | none => none
      | some g => (groups heap fuel r.next).map (fun gs => (_route, g) :: gs)

/-- The members of a list of groups in traversal order (group-chain order, within
a group the entry point first, then its sibling chain): address, name, and the
entry point of the group under which the member is visited. -/
def visits (gs : List (Nat × List (Nat × List Char))) : List (Nat × List Char × Nat) :=
  gs.flatMap (fun g => g.2.map (fun m => (m.1, m.2, g.1)))

/-- The pair `(*node, *route)` of the last member named `name` in traversal order,
`(NULL, NULL)` when no member carries the name. -/
def last_match (name : List Char) (gs : List (Nat × List (Nat × List Char))) : Ptr × Ptr :=
  match ((visits gs).filter (fun v => v.2.1 = name)).getLast? with
  | none => (none, none)
  | some v => (some v.1, some v.2.2)

/-! ## Names and sibling links of the allocated nodes -/

/-- The name stored in the node at address `i`, if one is allocated there. -/
def name_at (heap : List Node) (i : Nat) : Option (List Char) :=
  (heap[i]?).map (fun nd => nd.name)

/-- The `route` field of the node at address `i`, if one is allocated there. -/
def route_at (heap : List Node) (i : Nat) : Option Ptr :=
  (heap[i]?).map (fun nd => nd.route)

/-- Every `route` link of the heap leads to an allocated node, and joins two names
that are connected by a chain of registered relations. -/
def EdgesConnected (pairs : List (List Char × List Char)) (heap : List Node) : Prop :=
  ∀ p q x, route_at heap p = some (some q) → name_at heap p = some x →
    ∃ y, name_at heap q = some y ∧ Connected pairs x y

/-- Every allocated node carries a name that occurs in a registered pair. -/
def NamesRegistered (pairs : List (List Char × List Char)) (heap : List Node) : Prop :=
  ∀ i x, name_at heap i = some x → ∃ p ∈ pairs, p.1 = x ∨ p.2 = x

/-! ## Sequences of register calls that never merge -/

/-- The call `add_pair_to_routes_list(name_1, name_2)` on `st` reaches the last
branch with two different group entry points, that is, it calls `merge_routes`. -/
def takes_merge_branch (fuel : Nat) (st : State) (name_1 name_2 : List Char) : Bool :=
  match find_node_in_routes_list fuel st name_1, find_node_in_routes_list fuel st name_2 with
  | some (node_1_ptr, route_1_ptr), some (node_2_ptr, route_2_ptr) =>
    decide (node_1_ptr ≠ none ∧ node_2_ptr ≠ none ∧ route_1_ptr ≠ route_2_ptr)
  | _, _ => false

/-- No register call of the sequence, run from `st`, takes the merge branch. -/
def merge_free (fuel : Nat) : State → List (List Char × List Char) → Bool
  | _, [] => true
  | st, (name_1, name_2) :: rest =>
    !takes_merge_branch fuel st name_1 name_2 &&
      match add_pair_to_routes_list fuel st name_1 name_2 with
      | none => true
      | some (_, st1) => merge_free fuel st1 rest

/-- The group `g` after `add_node_to_route` has put the new member `m` behind the
entry point `r`: unchanged unless `r` is the entry point of `g`. -/
def insert_member (r : Nat) (m : Nat × List Char) (g : Nat × List (Nat × List Char)) :
    Nat × List (Nat × List Char) :=
  if g.1 = r then (g.1, g.2.take 1 ++ m :: g.2.drop 1) else g

/-- The groups `gs` keep the names of `pairs` apart: no entry point is also a
later member of a group, a name is carried by members of one group only, and the
two names of every registered pair are carried by members of one group. -/
def Separated (pairs : List (List Char × List Char))
    (gs : List (Nat × List (Nat × List Char))) : Prop :=
  (∀ g ∈ gs, ∀ g1 ∈ gs, ∀ m ∈ g1.2.tail, m.1 ≠ g.1) ∧
  (∀ v ∈ visits gs, ∀ w ∈ visits gs, v.2.1 = w.2.1 → v.2.2 = w.2.2) ∧
  (∀ p ∈ pairs, ∃ v ∈ visits gs, ∃ w ∈ visits gs,
    v.2.1 = p.1 ∧ w.2.1 = p.2 ∧ v.2.2 = w.2.2)

/-! ## More fuel never changes an answer -/

theorem find_in_route_mono (heap : List Node) (name : List Char) (_route : Nat) :
    ∀ (fuel fuel1 : Nat) (p : Ptr) (out r : Ptr × Ptr), fuel ≤ fuel1 →
      find_in_route heap name _route fuel p out = some r →
      find_in_route heap name _route fuel1 p out = some r := by
  intro fuel
  induction fuel with
  | zero =>
    intro fuel1 p out r _ h
    cases p with
    | none => cases fuel1 <;> simpa [find_in_route] using h
    | some q => simp [find_in_route] at h
  | succ n ih =>
    intro fuel1 p out r hle h
    cases p with
    | none => cases fuel1 <;> simpa [find_in_route] using h
    | some q =>
      obtain ⟨m, rfl⟩ : ∃ m, fuel1 = m + 1 := ⟨fuel1 - 1, by omega⟩
      simp only [find_in_route] at h ⊢
      cases hq : heap[q]? with
      | none => simp [hq] at h
      | some nd =>
        simp only [hq] at h ⊢
        exact ih m _ _ _ (by omega) h

theorem find_in_list_mono (heap : List Node) (name : List Char) :
    ∀ (fuel fuel1 : Nat) (p : Ptr) (out r : Ptr × Ptr), fuel ≤ fuel1 →
      find_in_list heap name fuel p out = some r →
      find_in_list heap name fuel1 p out = some r := by
  intro fuel
  induction fuel with
  | zero =>
    intro fuel1 p out r _ h
    cases p with
    | none => cases fuel1 <;> simpa [find_in_list] using h
    | some q => simp [find_in_list] at h
  | succ n ih =>
    intro fuel1 p out r hle h
    cases p with
    | none => cases fuel1 <;> simpa [find_in_list] using h
    | some q =>
      obtain ⟨m, rfl⟩ : ∃ m, fuel1 = m + 1 := ⟨fuel1 - 1, by omega⟩
      simp only [find_in_list] at h ⊢
      cases hq : heap[q]? with
      | none => simp [hq] at h
      | some nd =>
        simp only [hq] at h ⊢
        cases hin : find_in_route heap name q n (some q) out with
        | none => simp [hin] at h
        | some out1 =>
          rw [find_in_route_mono heap name q n m _ _ _ (by omega) hin]
          simp only [hin] at h
          exact ih m _ _ _ (by omega) h

theorem find_node_in_routes_list_mono (fuel fuel1 : Nat) (st : State) (name : List Char)
    (r : Ptr × Ptr) (hle : fuel ≤ fuel1)
    (h : find_node_in_routes_list fuel st name = some r) :
    find_node_in_routes_list fuel1 st name = some r :=
  find_in_list_mono st.heap name fuel fuel1 _ _ _ hle h

theorem merge_seek_mono (heap : List Node) (route_2 : Nat) :
    ∀ (fuel fuel1 : Nat) (p : Ptr) (r : Nat), fuel ≤ fuel1 →
      merge_seek heap route_2 fuel p = some r →
      merge_seek heap route_2 fuel1 p = some r := by
  intro fuel
  induction fuel with
  | zero =>
    intro fuel1 p r _ h
    cases p with
    | none => simp [merge_seek] at h
    | some q =>
      by_cases hq : q = route_2
      · cases fuel1 <;> simpa [merge_seek, hq] using h
      · simp [merge_seek, hq] at h
  | succ n ih =>
    intro fuel1 p r hle h
    cases p with
    | none => simp [merge_seek] at h
    | some q =>
      obtain ⟨m, rfl⟩ : ∃ m, fuel1 = m + 1 := ⟨fuel1 - 1, by omega⟩
      by_cases hq : q = route_2
      · simpa [merge_seek, hq] using h
      · simp only [merge_seek, hq, if_false] at h ⊢
        cases hd : heap[q]? with
        | none => simp [hd] at h
        | some nd =>
          simp only [hd] at h ⊢
          exact ih m _ _ (by omega) h

theorem merge_last_mono (heap : List Node) :
    ∀ (fuel fuel1 : Nat) (p r : Nat), fuel ≤ fuel1 →
      merge_last heap fuel p = some r → merge_last heap fuel1 p = some r := by
  intro fuel
  induction fuel with
  | zero => intro fuel1 p r _ h; simp [merge_last] at h
  | succ n ih =>
    intro fuel1 p r hle h
    obtain ⟨m, rfl⟩ : ∃ m, fuel1 = m + 1 := ⟨fuel1 - 1, by omega⟩
    simp only [merge_last] at h ⊢
    cases hd : heap[p]? with
    | none => simp [hd] at h
    | some nd =>
      simp only [hd] at h ⊢
      cases hr : nd.route with
      | none => simpa [hr] using h
      | some nxt =>
        simp only [hr] at h ⊢
        exact ih m _ _ (by omega) h

theorem merge_routes_mono (fuel fuel1 : Nat) (st st1 : State) (route_1 route_2 : Ptr)
    (hle : fuel ≤ fuel1) (h : merge_routes fuel st route_1 route_2 = some st1) :
    merge_routes fuel1 st route_1 route_2 = some st1 := by
  cases route_1 with
  | none => simp [merge_routes] at h
  | some r1 =>
    cases route_2 with
    | none => simp [merge_routes] at h
    | some r2 =>
      simp only [merge_routes] at h ⊢
      cases hs : merge_seek st.heap r2 fuel st.RoutesList with
      | none => simp [hs] at h
      | some q =>
        rw [merge_seek_mono st.heap r2 fuel fuel1 _ _ hle hs]
        simp only [hs] at h ⊢
        cases h2 : st.heap[r2]? with
        | none => simp [h2] at h
        | some n2 =>
          simp only [h2] at h ⊢
          cases hl : merge_last (setNext (setNext st.heap q n2.next) r2 none) fuel r2 with
          | none => simp [hl] at h
          | some last =>
            rw [merge_last_mono _ fuel fuel1 _ _ hle hl]
            simpa [hl] using h

theorem add_pair_to_routes_list_mono (fuel fuel1 : Nat) (st : State)
    (name_1 name_2 : List Char) (r : RETURN_CODE × State) (hle : fuel ≤ fuel1)
    (h : add_pair_to_routes_list fuel st name_1 name_2 = some r) :
    add_pair_to_routes_list fuel1 st name_1 name_2 = some r := by
  simp only [add_pair_to_routes_list] at h ⊢
  cases h1 : find_node_in_routes_list fuel st name_1 with
  | none => simp [h1] at h
  | some f1 =>
    rw [find_node_in_routes_list_mono fuel fuel1 st name_1 f1 hle h1]
    simp only [h1] at h ⊢
    cases h2 : find_node_in_routes_list fuel st name_2 with
    | none => simp [h2] at h
    | some f2 =>
      rw [find_node_in_routes_list_mono fuel fuel1 st name_2 f2 hle h2]
      simp only [h2] at h ⊢
      split_ifs at h ⊢ with c1 c2 c3 c4
      · exact h
      · exact h
      · exact h
      · cases hm : merge_routes fuel st f1.2 f2.2 with
        | none => simp [hm] at h
        | some st1 =>
          rw [merge_routes_mono fuel fuel1 st st1 _ _ hle hm]
          simpa [hm] using h
      · exact h

theorem is_route_mono (fuel fuel1 : Nat) (st : State) (name_1 name_2 : List Char)
    (r : RETURN_CODE × Option Int) (hle : fuel ≤ fuel1)
    (h : is_route fuel st name_1 name_2 = some r) :
    is_route fuel1 st name_1 name_2 = some r := by
  simp only [is_route] at h ⊢
  cases h1 : find_node_in_routes_list fuel st name_1 with
  | none => simp [h1] at h
  | some f1 =>
    rw [find_node_in_routes_list_mono fuel fuel1 st name_1 f1 hle h1]
    simp only [h1] at h ⊢
    by_cases c1 : f1.1 = none
    · simpa [c1] using h
    · simp only [c1, if_false] at h ⊢
      cases h2 : find_node_in_routes_list fuel st name_2 with
      | none => simp [h2] at h
      | some f2 =>
        rw [find_node_in_routes_list_mono fuel fuel1 st name_2 f2 hle h2]
        simpa [h2] using h

theorem register_all_mono (fuel fuel1 : Nat) (hle : fuel ≤ fuel1) :
    ∀ (pairs : List (List Char × List Char)) (st st1 : State),
      register_all fuel st pairs = some st1 → register_all fuel1 st pairs = some st1 := by
  intro pairs
  induction pairs with
  | nil => intro st st1 h; simpa [register_all] using h
  | cons pr rest ih =>
    intro st st1 h
    obtain ⟨name_1, name_2⟩ := pr
    simp only [register_all] at h ⊢
    cases ha : add_pair_to_routes_list fuel st name_1 name_2 with
    | none => simp [ha] at h
    | some r =>
      rw [add_pair_to_routes_list_mono fuel fuel1 st name_1 name_2 r hle ha]
      simp only [ha] at h ⊢
      exact ih _ _ h

theorem query_mono (fuel fuel1 : Nat) (pairs : List (List Char × List Char))
    (n1 n2 : List Char) (r : RETURN_CODE × Option Int) (hle : fuel ≤ fuel1)
    (h : query fuel pairs n1 n2 = some r) : query fuel1 pairs n1 n2 = some r := by
  unfold query at h ⊢
  cases hr : register_all fuel State.empty pairs with
  | none => simp [hr] at h
  | some st =>
    rw [register_all_mono fuel fuel1 hle pairs _ _ hr]
    rw [hr] at h
    exact is_route_mono fuel fuel1 st n1 n2 r hle h

theorem cyclicState_member_walk (name : List Char) (_route : Nat) :
    ∀ (fuel : Nat) (p : Nat) (out : Ptr × Ptr), p = 0 ∨ p = 1 ∨ p = 3 →
      find_in_route cyclicState.heap name _route fuel (some p) out = none := by
  intro fuel
  induction fuel with
  | zero => intro p out _; simp [find_in_route]
  | succ n ih =>
    intro p out hp
    rcases hp with rfl | rfl | rfl
    · simp only [find_in_route, cyclicState, List.getElem?_cons_zero]
      exact ih 1 _ (by simp)
    · simp only [find_in_route, cyclicState, List.getElem?_cons_succ, List.getElem?_cons_zero]
      exact ih 3 _ (by simp)
    · simp only [find_in_route, cyclicState, List.getElem?_cons_succ, List.getElem?_cons_zero]
      exact ih 0 _ (by simp)

theorem cyclicState_find_diverges (fuel : Nat) (name : List Char) :
    find_node_in_routes_list fuel cyclicState name = none := by
  cases fuel with
  | zero => simp [find_node_in_routes_list, find_in_list, cyclicState]
  | succ n =>
    have h : find_in_route cyclicState.heap name 2 n (some 2) (none, none) = none := by
      cases n with
      | zero => simp [find_in_route]
      | succ m =>
        simp only [find_in_route, cyclicState, List.getElem?_cons_succ, List.getElem?_cons_zero]
        exact cyclicState_member_walk name 2 m 0 _ (by simp)
    have h2 : cyclicState.heap[2]? = some { name := "A".toList, route := some 0, next := some 0 } := rfl
    have h3 : cyclicState.RoutesList = some 2 := rfl
    simp only [find_node_in_routes_list, h3, find_in_list, h2, h]

/-! ## The registry on sequences that merge two groups -/

/-- C1 (transitivity, P2), evaluated on the code. The sequence register(A,B),
register(C,D), register(B,C) contains register(A,B) and register(B,C), yet for
every fuel of at least 4 the query is_route(A,C) afterwards returns RC_NO_EXIST
and stores no result: the merge cut the group chain after the absorbed group
`C`, which was the head, so group `A` is no longer reached from RoutesList. -/
theorem transitivity_lost_after_merge (k : Nat) :
    ("A".toList, "B".toList) ∈
        [("A".toList, "B".toList), ("C".toList, "D".toList), ("B".toList, "C".toList)] ∧
    ("B".toList, "C".toList) ∈
        [("A".toList, "B".toList), ("C".toList, "D".toList), ("B".toList, "C".toList)] ∧
    query (k + 4) [("A".toList, "B".toList), ("C".toList, "D".toList), ("B".toList, "C".toList)]
        "A".toList "C".toList = some (RC_NO_EXIST, none) := by
  refine ⟨by decide, by decide, ?_⟩
  exact query_mono 4 (k + 4) _ _ _ _ (by omega) (by decide)

theorem not_connected_X_C :
    ¬ Connected [("X".toList, "Y".toList), ("A".toList, "B".toList), ("C".toList, "D".toList),
        ("C".toList, "A".toList)] "X".toList "C".toList := by
  intro h
  have key : ∀ a b : List Char,
      Relation.EqvGen (fun a b => (a, b) ∈ [("X".toList, "Y".toList), ("A".toList, "B".toList),
        ("C".toList, "D".toList), ("C".toList, "A".toList)]) a b →
      ((a = "X".toList ∨ a = "Y".toList) ↔ (b = "X".toList ∨ b = "Y".toList)) := by
    intro a b hab
    induction hab with
    | rel x y hxy =>
      simp only [List.mem_cons, Prod.mk.injEq, List.mem_singleton, List.mem_nil_iff,
        or_false] at hxy
      rcases hxy with ⟨rfl, rfl⟩ | ⟨rfl, rfl⟩ | ⟨rfl, rfl⟩ | ⟨rfl, rfl⟩ <;> decide
    | refl x => exact Iff.rfl
    | symm x y _ ih => exact ih.symm
    | trans x y z _ _ ih1 ih2 => exact ih1.trans ih2
  have h1 := (key _ _ h).mp (Or.inl rfl)
  revert h1
  decide

/-- C2 (isolation, P3), evaluated on the code. After register(X,Y), register(A,B),
register(C,D), register(C,A) the names X and C both occur in a registered pair and
no chain of registered relations joins them, yet for every fuel of at least 5
is_route(X,C) returns RC_NO_EXIST instead of succeeding with result 0: the merge
of groups `C` and `A` cut the group chain after `A`, dropping group `X`. -/
theorem isolation_lost_after_merge (k : Nat) :
    ("X".toList, "Y".toList) ∈ [("X".toList, "Y".toList), ("A".toList, "B".toList),
        ("C".toList, "D".toList), ("C".toList, "A".toList)] ∧
    ("C".toList, "D".toList) ∈ [("X".toList, "Y".toList), ("A".toList, "B".toList),
        ("C".toList, "D".toList), ("C".toList, "A".toList)] ∧
    ¬ Connected [("X".toList, "Y".toList), ("A".toList, "B".toList), ("C".toList, "D".toList),
        ("C".toList, "A".toList)] "X".toList "C".toList ∧
    query (k + 5) [("X".toList, "Y".toList), ("A".toList, "B".toList), ("C".toList, "D".toList),
        ("C".toList, "A".toList)] "X".toList "C".toList = some (RC_NO_EXIST, none) := by
  refine ⟨by decide, by decide, not_connected_X_C, ?_⟩
  exact query_mono 5 (k + 5) _ _ _ _ (by omega) (by decide)

/-- C3 (reflexivity, P1), evaluated on the code. The name A occurs in the
registered pair (A,B), yet after register(A,B), register(C,D), register(B,C) the
query is_route(A,A) returns RC_NO_EXIST for every fuel of at least 4. -/
theorem reflexivity_lost_after_merge (k : Nat) :
    ("A".toList, "B".toList) ∈
        [("A".toList, "B".toList), ("C".toList, "D".toList), ("B".toList, "C".toList)] ∧
    query (k + 4) [("A".toList, "B".toList), ("C".toList, "D".toList), ("B".toList, "C".toList)]
        "A".toList "A".toList = some (RC_NO_EXIST, none) :=
  ⟨by decide, query_mono 4 (k + 4) _ _ _ _ (by omega) (by decide)⟩

/-- C4 (idempotence, P4), evaluated on the code. From the state reached by
register(C,D), register(A,B), one register(A,C) gives a state `s1` and a second
register(A,C) gives the different state `cyclicState`: the second call merges
again and closes a cycle in the member chain. On `s1` the query is_route(D,B)
answers 1; on the state after the second call no query returns, whatever the
fuel. -/
theorem register_twice_differs (k : Nat) :
    ∃ st s1 : State,
      register_all (k + 5) State.empty [("C".toList, "D".toList), ("A".toList, "B".toList)]
        = some st ∧
      add_pair_to_routes_list (k + 5) st "A".toList "C".toList = some (RC_NO_ERROR, s1) ∧
      add_pair_to_routes_list (k + 5) s1 "A".toList "C".toList
        = some (RC_NO_ERROR, cyclicState) ∧
      cyclicState ≠ s1 ∧
      is_route (k + 5) s1 "D".toList "B".toList = some (RC_NO_ERROR, some 1) ∧
      ∀ fuel, is_route fuel cyclicState "D".toList "B".toList = none := by
  refine ⟨{ heap := [{ name := "C".toList, route := some 1, next := none },
                     { name := "D".toList, route := none, next := none },
                     { name := "A".toList, route := some 3, next := some 0 },
                     { name := "B".toList, route := none, next := none }]
            RoutesList := some 2 },
          { heap := [{ name := "C".toList, route := some 1, next := none },
                     { name := "D".toList, route := some 3, next := none },
                     { name := "A".toList, route := some 0, next := some 0 },
                     { name := "B".toList, route := none, next := none }]
            RoutesList := some 2 }, ?_, ?_, ?_, by decide, ?_, ?_⟩
  · exact register_all_mono 5 (k + 5) (by omega) _ _ _ (by decide)
  · exact add_pair_to_routes_list_mono 5 (k + 5) _ _ _ _ (by omega) (by decide)
  · exact add_pair_to_routes_list_mono 5 (k + 5) _ _ _ _ (by omega) (by decide)
  · exact is_route_mono 5 (k + 5) _ _ _ _ (by omega) (by decide)
  · intro fuel
    simp [is_route, cyclicState_find_diverges]

/-- C5 (unknown entity, P5), evaluated on the code. The name X occurs in none of
the pairs register(C,D), register(A,B), register(A,C), register(A,C); the four
calls succeed for every fuel of at least 5 and leave `cyclicState`, on which
neither is_route(X,y) nor is_route(y,X) returns for any name y and any fuel, so
RC_NO_EXIST is never delivered. -/
theorem unknown_name_query_diverges :
    (∀ p ∈ [("C".toList, "D".toList), ("A".toList, "B".toList), ("A".toList, "C".toList),
        ("A".toList, "C".toList)], p.1 ≠ "X".toList ∧ p.2 ≠ "X".toList) ∧
    (∀ k, register_all (k + 5) State.empty [("C".toList, "D".toList), ("A".toList, "B".toList),
        ("A".toList, "C".toList), ("A".toList, "C".toList)] = some cyclicState) ∧
    ∀ (fuel : Nat) (y : List Char),
      is_route fuel cyclicState "X".toList y = none ∧
      is_route fuel cyclicState y "X".toList = none := by
  refine ⟨by decide, ?_, ?_⟩
  · intro k
    exact register_all_mono 5 (k + 5) (by omega) _ _ _ (by decide)
  · intro fuel y
    simp [is_route, cyclicState_find_diverges]

/-! ## C strings in character arrays -/

theorem NUL_ne_comma : (',' : Char) ≠ NUL := by decide

theorem NUL_ne_newline : ('\n' : Char) ≠ NUL := by decide

theorem cstr_nil : cstr [] = [] := rfl

theorem cstr_cons_NUL (rest : List Char) : cstr (NUL :: rest) = [] := by
  simp [cstr]

theorem cstr_cons_of_ne (c : Char) (rest : List Char) (h : c ≠ NUL) :
    cstr (c :: rest) = c :: cstr rest := by
  simp [cstr, h]

theorem NUL_not_mem_cstr (buf : List Char) : NUL ∉ cstr buf := by
  intro h
  have := List.mem_takeWhile_imp h
  simp at this

theorem cstr_append_of_not_mem (pre rest : List Char) (h : NUL ∉ pre) :
    cstr (pre ++ rest) = pre ++ cstr rest := by
  induction pre with
  | nil => rfl
  | cons c cs ih =>
    have hc : c ≠ NUL := fun e => h (by simp [e])
    have hcs : NUL ∉ cs := fun e => h (by simp [e])
    simp [cstr_cons_of_ne, hc, ih hcs]

theorem cstr_of_not_mem (s : List Char) (h : NUL ∉ s) : cstr s = s := by
  have := cstr_append_of_not_mem s [] h
  simpa [cstr_nil] using this

theorem cstr_terminated (pre rest : List Char) (h : NUL ∉ pre) :
    cstr (pre ++ NUL :: rest) = pre := by
  rw [cstr_append_of_not_mem pre _ h, cstr_cons_NUL, List.append_nil]

theorem strlen_eq_length_cstr (buf : List Char) : strlen buf = (cstr buf).length := by
  induction buf with
  | nil => rfl
  | cons c cs ih =>
    by_cases hc : c = NUL
    · simp [strlen, hc, cstr_cons_NUL]
    · simp [strlen, hc, cstr_cons_of_ne, ih]

theorem strstr_append (ch : Char) (pre rest : List Char) (h1 : ch ∉ pre) (h2 : NUL ∉ pre) :
    strstr ch (pre ++ rest) = (strstr ch rest).map (· + pre.length) := by
  induction pre with
  | nil => simp
  | cons c cs ih =>
    have hc : c ≠ NUL := fun e => h2 (by simp [e])
    have hcs : NUL ∉ cs := fun e => h2 (by simp [e])
    have hc1 : c ≠ ch := fun e => h1 (by simp [e])
    have hcs1 : ch ∉ cs := fun e => h1 (by simp [e])
    show strstr ch (c :: (cs ++ rest)) = _
    rw [strstr]
    simp only [hc, hc1, if_false]
    rw [ih hcs1 hcs]
    cases strstr ch rest <;> simp [Nat.add_assoc]

theorem strstr_found (ch : Char) (pre rest : List Char) (hch : ch ≠ NUL) (h1 : ch ∉ pre)
    (h2 : NUL ∉ pre) : strstr ch (pre ++ ch :: rest) = some pre.length := by
  rw [strstr_append ch pre _ h1 h2]
  simp [strstr, hch]

theorem strstr_terminated (ch : Char) (pre rest : List Char) (h1 : ch ∉ pre) (h2 : NUL ∉ pre) :
    strstr ch (pre ++ NUL :: rest) = none := by
  rw [strstr_append ch pre _ h1 h2]
  simp [strstr]

theorem strstr_split (ch : Char) :
    ∀ (buf : List Char) (i : Nat), strstr ch buf = some i →
      ∃ pre rest, buf = pre ++ ch :: rest ∧ pre.length = i ∧ ch ∉ pre ∧ NUL ∉ pre := by
  intro buf
  induction buf with
  | nil => intro i h; simp [strstr] at h
  | cons c cs ih =>
    intro i h
    by_cases hc : c = NUL
    · simp [strstr, hc] at h
    · by_cases hc1 : c = ch
      · subst hc1
        simp only [strstr, hc, if_true, if_false, Option.some.injEq] at h
        exact ⟨[], cs, by simp, by simpa using h, by simp, by simp⟩
      · simp only [strstr, hc, hc1, if_false, Option.map_eq_some'] at h
        obtain ⟨j, hj, rfl⟩ := h
        obtain ⟨pre, rest, rfl, hlen, hp1, hp2⟩ := ih j hj
        refine ⟨c :: pre, rest, by simp, by simp [hlen], ?_, ?_⟩
        · simp only [List.mem_cons, not_or]
          exact ⟨fun e => hc1 e.symm, hp1⟩
        · simp only [List.mem_cons, not_or]
          exact ⟨fun e => hc e.symm, hp2⟩

theorem strstr_eq_none_iff (ch : Char) (buf : List Char) :
    strstr ch buf = none ↔ ch ∉ cstr buf := by
  induction buf with
  | nil => simp [strstr, cstr_nil]
  | cons c cs ih =>
    by_cases hc : c = NUL
    · simp [strstr, hc, cstr_cons_NUL]
    · by_cases hc1 : c = ch
      · simp [strstr, hc, hc1, cstr_cons_of_ne, hc1 ▸ hc]
      · have hne : ¬ ch = c := fun e => hc1 e.symm
        simp [strstr, hc, hc1, cstr_cons_of_ne, ih, hne]

theorem takeWhile_ne_split (ch : Char) (pre post : List Char) (h : ch ∉ pre) :
    (pre ++ ch :: post).takeWhile (· ≠ ch) = pre ∧
    (pre ++ ch :: post).dropWhile (· ≠ ch) = ch :: post := by
  induction pre with
  | nil => simp
  | cons c cs ih =>
    have hc : c ≠ ch := fun e => h (by simp [e])
    have hcs : ch ∉ cs := fun e => h (by simp [e])
    obtain ⟨h1, h2⟩ := ih hcs
    constructor
    · rw [List.cons_append, List.takeWhile_cons_of_pos (by simpa using hc), h1]
    · rw [List.cons_append, List.dropWhile_cons_of_pos (by simpa using hc), h2]

/-- What `extract_names_from_line` computes on an array whose first ',' before any
NUL is at offset `pre.length`. -/
theorem extract_names_from_line_split (pre rest : List Char) (h1 : ',' ∉ pre)
    (h2 : NUL ∉ pre) :
    extract_names_from_line (pre ++ ',' :: rest) =
      if pre.length > MAX_NODE_NAME ∨ (cstr rest).length > MAX_NODE_NAME then
        (RC_STR_TOO_LONG, none)
      else (RC_NO_ERROR, some (pre, cstr rest)) := by
  have hd : (pre ++ ',' :: rest).drop (pre.length + 1) = rest := by
    rw [List.drop_append]
    rfl
  have ht : strncpy (pre ++ ',' :: rest) pre.length = pre := by
    simp [strncpy, cstr_of_not_mem pre h2]
  simp only [extract_names_from_line, strstr_found ',' pre rest NUL_ne_comma h1 h2, hd, ht,
    strlen_eq_length_cstr, strcpy]

/-- C8. For every character array `line`, with the record being the C string it
holds: `extract_names_from_line` returns RC_NO_DELIMITER exactly when the record
contains no ','; otherwise RC_STR_TOO_LONG exactly when the part before the first
',' or the part after it is longer than 30 characters; otherwise RC_NO_ERROR. A
31-character first or second name is rejected, two 30-character names are
accepted. -/
theorem extract_names_return_code (line : List Char) :
    ((extract_names_from_line line).1 =
      if ',' ∉ cstr line then RC_NO_DELIMITER
      else if 30 < ((cstr line).takeWhile (· ≠ ',')).length ∨
          30 < (((cstr line).dropWhile (· ≠ ',')).drop 1).length then RC_STR_TOO_LONG
      else RC_NO_ERROR) ∧
    (extract_names_from_line (List.replicate 31 'a' ++ ',' :: ['b'])).1 = RC_STR_TOO_LONG ∧
    (extract_names_from_line ('a' :: ',' :: List.replicate 31 'b')).1 = RC_STR_TOO_LONG ∧
    (extract_names_from_line (List.replicate 30 'a' ++ ',' :: List.replicate 30 'b')).1
      = RC_NO_ERROR := by
  refine ⟨?_, by decide, by decide, by decide⟩
  cases hs : strstr ',' line with
  | none =>
    have hn : ',' ∉ cstr line := (strstr_eq_none_iff ',' line).mp hs
    simp [extract_names_from_line, hs, hn]
  | some i =>
    obtain ⟨pre, rest, rfl, _, h1, h2⟩ := strstr_split ',' line i hs
    have hc : cstr (pre ++ ',' :: rest) = pre ++ ',' :: cstr rest := by
      rw [cstr_append_of_not_mem pre _ h2, cstr_cons_of_ne _ _ NUL_ne_comma]
    obtain ⟨t1, t2⟩ := takeWhile_ne_split ',' pre (cstr rest) h1
    rw [extract_names_from_line_split pre rest h1 h2, hc, t1, t2]
    simp only [List.mem_append, List.mem_cons, true_or, or_true, not_true_eq_false, if_false,
      List.drop_succ_cons, List.drop_zero, MAX_NODE_NAME]
    split_ifs <;> rfl

/-- C9. Whenever `extract_names_from_line` returns RC_NO_ERROR it has written both
names; `name_1` contains no ',', `name_1 ++ "," ++ name_2` is the record (the C
string held in `line`), and both names have at most 30 characters. -/
theorem extract_names_split_at_first_comma (line : List Char)
    (h : (extract_names_from_line line).1 = RC_NO_ERROR) :
    ∃ name_1 name_2, (extract_names_from_line line).2 = some (name_1, name_2) ∧
      ',' ∉ name_1 ∧ name_1 ++ ',' :: name_2 = cstr line ∧
      name_1.length ≤ 30 ∧ name_2.length ≤ 30 := by
  cases hs : strstr ',' line with
  | none => simp [extract_names_from_line, hs] at h
  | some i =>
    obtain ⟨pre, rest, rfl, _, h1, h2⟩ := strstr_split ',' line i hs
    have hc : cstr (pre ++ ',' :: rest) = pre ++ ',' :: cstr rest := by
      rw [cstr_append_of_not_mem pre _ h2, cstr_cons_of_ne _ _ NUL_ne_comma]
    rw [extract_names_from_line_split pre rest h1 h2] at h ⊢
    by_cases hlen : pre.length > MAX_NODE_NAME ∨ (cstr rest).length > MAX_NODE_NAME
    · simp [hlen] at h
    · simp only [hlen, if_false]
      simp only [MAX_NODE_NAME, not_or, not_lt] at hlen
      exact ⟨pre, cstr rest, rfl, h1, hc.symm, hlen.1, hlen.2⟩

theorem extract_names_split_at_first_comma_witness :
    (extract_names_from_line "Jerusalem,Tel-Aviv,x".toList).1 = RC_NO_ERROR ∧
    ∃ name_1 name_2,
      (extract_names_from_line "Jerusalem,Tel-Aviv,x".toList).2 = some (name_1, name_2) ∧
      ',' ∉ name_1 ∧ name_1 ++ ',' :: name_2 = cstr "Jerusalem,Tel-Aviv,x".toList ∧
      name_1.length ≤ 30 ∧ name_2.length ≤ 30 :=
  ⟨by decide, extract_names_split_at_first_comma _ (by decide)⟩

theorem build_routes_list_mono :
    ∀ (fuel fuel1 : Nat) (ReadBuffer file : List Char) (st : State) (r : BuildResult),
      fuel ≤ fuel1 → build_routes_list fuel ReadBuffer file st = some r →
      build_routes_list fuel1 ReadBuffer file st = some r := by
  intro fuel
  induction fuel with
  | zero => intro fuel1 b f st r _ h; simp [build_routes_list] at h
  | succ n ih =>
    intro fuel1 b f st r hle h
    obtain ⟨m, rfl⟩ : ∃ m, fuel1 = m + 1 := ⟨fuel1 - 1, by omega⟩
    simp only [build_routes_list] at h ⊢
    by_cases hrc : (read_next_line b f).rc = RC_NO_ERROR
    · simp only [hrc, if_true] at h ⊢
      cases hl : (read_next_line b f).line with
      | none => simp [hl] at h
      | some line =>
        simp only [hl] at h ⊢
        by_cases he : (extract_names_from_line line).1 = RC_NO_ERROR
        · simp only [he, if_true] at h ⊢
          cases hn : (extract_names_from_line line).2 with
          | none => simp [hn] at h
          | some names =>
            obtain ⟨name_1, name_2⟩ := names
            simp only [hn] at h ⊢
            cases ha : add_pair_to_routes_list n st name_1 name_2 with
            | none => simp [ha] at h
            | some res =>
              rw [add_pair_to_routes_list_mono n m st name_1 name_2 res (by omega) ha]
              simp only [ha] at h ⊢
              exact ih m _ _ _ _ (by omega) h
        · simp only [he, if_false] at h ⊢
          exact ih m _ _ _ _ (by omega) h
    · simpa [hrc] using h

/-- C6 (Scenario A). For every fuel of at least 17, `build_routes_list` on the
eight-record stream, from the all-zero buffer and the empty partition, ends with
RC_EOF; on the registry it leaves, is_route(Melbourne, Jerusalem) and
is_route(Sydney, Los-Angeles) return RC_NO_ERROR with result 1 and
is_route(Sydney, Cairo) returns RC_NO_EXIST. -/
theorem scenario_A_end_to_end (k : Nat) :
    ∃ r : BuildResult,
      build_routes_list (k + 17) ReadBuffer0 scenario_A_stream State.empty = some r ∧
      r.rc = RC_EOF ∧
      is_route (k + 17) r.st "Melbourne".toList "Jerusalem".toList = some (RC_NO_ERROR, some 1) ∧
      is_route (k + 17) r.st "Sydney".toList "Los-Angeles".toList = some (RC_NO_ERROR, some 1) ∧
      is_route (k + 17) r.st "Sydney".toList "Cairo".toList = some (RC_NO_EXIST, none) := by
  have h1 : (build_routes_list 17 ReadBuffer0 scenario_A_stream State.empty).map
      (fun r => r.rc) = some RC_EOF := by decide
  have h2 : (build_routes_list 17 ReadBuffer0 scenario_A_stream State.empty).bind
      (fun r => is_route 17 r.st "Melbourne".toList "Jerusalem".toList)
      = some (RC_NO_ERROR, some 1) := by decide
  have h3 : (build_routes_list 17 ReadBuffer0 scenario_A_stream State.empty).bind
      (fun r => is_route 17 r.st "Sydney".toList "Los-Angeles".toList)
      = some (RC_NO_ERROR, some 1) := by decide
  have h4 : (build_routes_list 17 ReadBuffer0 scenario_A_stream State.empty).bind
      (fun r => is_route 17 r.st "Sydney".toList "Cairo".toList)
      = some (RC_NO_EXIST, none) := by decide
  cases hb : build_routes_list 17 ReadBuffer0 scenario_A_stream State.empty with
  | none => rw [hb] at h1; exact absurd h1 (by simp)
  | some r =>
    rw [hb] at h1 h2 h3 h4
    exact ⟨r, build_routes_list_mono 17 (k + 17) _ _ _ _ (by omega) hb,
      by simpa using h1,
      is_route_mono 17 (k + 17) _ _ _ _ (by omega) h2,
      is_route_mono 17 (k + 17) _ _ _ _ (by omega) h3,
      is_route_mono 17 (k + 17) _ _ _ _ (by omega) h4⟩

/-- C7 (Scenario C), evaluated on the code. On the stream "A-B\nC,D\n" the first
record read is "A-B", on which the parser returns RC_NO_DELIMITER; yet for every
fuel of at least 3 `build_routes_list` returns RC_EOF, and the pair (C,D) of the
following record is registered: is_route(C,D) answers 1 on the final registry. -/
theorem malformed_record_is_skipped (k : Nat) :
    (read_next_line ReadBuffer0 "A-B\nC,D\n".toList).line = some "A-B".toList ∧
    (extract_names_from_line "A-B".toList).1 = RC_NO_DELIMITER ∧
    ∃ r : BuildResult,
      build_routes_list (k + 3) ReadBuffer0 "A-B\nC,D\n".toList State.empty = some r ∧
      r.rc = RC_EOF ∧
      is_route (k + 3) r.st "C".toList "D".toList = some (RC_NO_ERROR, some 1) := by
  refine ⟨by decide, by decide, ?_⟩
  have h1 : (build_routes_list 3 ReadBuffer0 "A-B\nC,D\n".toList State.empty).map
      (fun r => r.rc) = some RC_EOF := by decide
  have h2 : (build_routes_list 3 ReadBuffer0 "A-B\nC,D\n".toList State.empty).bind
      (fun r => is_route 3 r.st "C".toList "D".toList) = some (RC_NO_ERROR, some 1) := by
    decide
  cases hb : build_routes_list 3 ReadBuffer0 "A-B\nC,D\n".toList State.empty with
  | none => rw [hb] at h1; exact absurd h1 (by simp)
  | some r =>
    rw [hb] at h1 h2
    exact ⟨r, build_routes_list_mono 3 (k + 3) _ _ _ _ (by omega) hb, by simpa using h1,
      is_route_mono 3 (k + 3) _ _ _ _ (by omega) h2⟩

/-! ## The tokenizer on well-formed streams -/

theorem writeAt_length (buf data : List Char) (off : Nat)
    (h : off + data.length ≤ buf.length) : (writeAt buf off data).length = buf.length := by
  simp only [writeAt, List.length_append, List.length_take, List.length_drop]
  omega

theorem stream_of_cons (r : List Char) (rs : List (List Char)) :
    stream_of (r :: rs) = r ++ '\n' :: stream_of rs := by
  simp [stream_of]

theorem NUL_not_mem_stream_of (records : List (List Char)) (h : ∀ r ∈ records, NUL ∉ r) :
    NUL ∉ stream_of records := by
  induction records with
  | nil => simp [stream_of]
  | cons r rs ih =>
    rw [stream_of_cons]
    have h1 : NUL ∉ r := h r (by simp)
    have h2 : NUL ∉ stream_of rs := ih (fun x hx => h x (by simp [hx]))
    simp only [List.mem_append, List.mem_cons, not_or]
    exact ⟨h1, fun e => NUL_ne_newline e.symm, h2⟩

theorem first_split_unique (ch : Char) :
    ∀ (p r x y : List Char), ch ∉ p → ch ∉ r → p ++ ch :: x = r ++ ch :: y → p = r ∧ x = y := by
  intro p
  induction p with
  | nil =>
    intro r x y _ hr h
    cases r with
    | nil => simpa using h
    | cons c cs =>
      simp only [List.nil_append, List.cons_append, List.cons.injEq] at h
      exact absurd (by simp [h.1]) hr
  | cons a as ih =>
    intro r x y hp hr h
    cases r with
    | nil =>
      simp only [List.nil_append, List.cons_append, List.cons.injEq] at h
      exact absurd (by simp [h.1]) hp
    | cons c cs =>
      simp only [List.cons_append, List.cons.injEq] at h
      have hp1 : ch ∉ as := fun e => hp (by simp [e])
      have hr1 : ch ∉ cs := fun e => hr (by simp [e])
      obtain ⟨e1, e2⟩ := ih cs x y hp1 hr1 h.2
      exact ⟨by rw [h.1, e1], e2⟩

theorem prefix_of_no_newline (s file r x : List Char) (hs : '\n' ∉ s)
    (h : s ++ file = r ++ '\n' :: x) : ∃ r2, r = s ++ r2 ∧ file = r2 ++ '\n' :: x := by
  rcases List.append_eq_append_iff.mp h with ⟨a, ha, hb⟩ | ⟨c, hc, hd⟩
  · exact ⟨a, ha, hb⟩
  · cases c with
    | nil =>
      refine ⟨[], ?_, ?_⟩
      · simpa using hc.symm
      · simpa using hd.symm
    | cons c0 cs =>
      simp only [List.cons_append, List.cons.injEq] at hd
      exact absurd (by rw [hc, hd.1]; simp) hs

theorem copy_line_spec (r t rest file : List Char) (hr : NUL ∉ r) (ht : NUL ∉ t) :
    copy_line (r ++ '\n' :: (t ++ NUL :: rest)) file r.length =
      { rc := RC_NO_ERROR
        line := some r
        ReadBuffer := t ++ NUL :: (r ++ '\n' :: (t ++ NUL :: rest)).drop (t.length + 1)
        file := file } := by
  have h1 : strncpy (r ++ '\n' :: (t ++ NUL :: rest)) r.length = r := by
    simp [strncpy, cstr_of_not_mem r hr]
  have h2 : (r ++ '\n' :: (t ++ NUL :: rest)).drop (r.length + 1) = t ++ NUL :: rest := by
    rw [List.drop_append]
    rfl
  have h3 : strlen (t ++ NUL :: rest) = t.length := by
    rw [strlen_eq_length_cstr, cstr_terminated t rest ht]
  have h4 : (t ++ NUL :: rest).take (t.length + 1) = t ++ [NUL] := by
    rw [List.take_append]
    rfl
  simp only [copy_line, h1, h2, h3, h4, writeAt, List.take_zero, List.nil_append,
    List.length_append, List.length_singleton, Nat.zero_add, List.append_assoc,
    List.singleton_append]

/-- A `read_next_line` call whose buffer already holds a whole line. -/
theorem read_next_line_buffered (r t rest file : List Char) (hn : '\n' ∉ r) (hr : NUL ∉ r)
    (ht : NUL ∉ t) :
    read_next_line (r ++ '\n' :: (t ++ NUL :: rest)) file =
      { rc := RC_NO_ERROR
        line := some r
        ReadBuffer := t ++ NUL :: (r ++ '\n' :: (t ++ NUL :: rest)).drop (t.length + 1)
        file := file } := by
  rw [read_next_line, strstr_found '\n' r _ NUL_ne_newline hn hr]
  exact copy_line_spec r t rest file hr ht

/-- A `read_next_line` call that has to read a block, when the block completes the
pending line `s ++ r2`. -/
theorem read_next_line_refill (s rest r2 t file1 file : List Char)
    (hs1 : '\n' ∉ s) (hs2 : NUL ∉ s) (hr1 : '\n' ∉ r2) (hr2 : NUL ∉ r2) (ht : NUL ∉ t)
    (hlen : s.length + 1 + READ_BLOCK_LEN ≤ READ_BUF_SIZE)
    (hfit : s.length + (r2.length + 1 + t.length) + 1 ≤ (s ++ NUL :: rest).length)
    (hblock : file.take READ_BLOCK_LEN = r2 ++ '\n' :: t)
    (hfile : file.drop READ_BLOCK_LEN = file1) :
    ∃ rest1,
      read_next_line (s ++ NUL :: rest) file =
        { rc := RC_NO_ERROR
          line := some (s ++ r2)
          ReadBuffer := t ++ NUL :: rest1
          file := file1 } ∧
      (t ++ NUL :: rest1).length = (s ++ NUL :: rest).length := by
  have hstr : strstr '\n' (s ++ NUL :: rest) = none := strstr_terminated '\n' s rest hs1 hs2
  have hsl : strlen (s ++ NUL :: rest) = s.length := by
    rw [strlen_eq_length_cstr, cstr_terminated s rest hs2]
  have hblen : (r2 ++ '\n' :: t).length = r2.length + 1 + t.length := by
    simp only [List.length_append, List.length_cons]; omega
  have hw1 : writeAt (s ++ NUL :: rest) s.length (r2 ++ '\n' :: t) =
      (s ++ r2) ++ '\n' :: (t ++ (s ++ NUL :: rest).drop (s.length + (r2 ++ '\n' :: t).length)) := by
    simp [writeAt]
  have hn : '\n' ∉ s ++ r2 := by simp [hs1, hr1]
  have hz : NUL ∉ s ++ r2 := by simp [hs2, hr2]
  have hstr1 : strstr '\n' (writeAt (s ++ NUL :: rest) s.length (r2 ++ '\n' :: t)) =
      some (s ++ r2).length := by
    rw [hw1]; exact strstr_found '\n' _ _ NUL_ne_newline hn hz
  have hw2 : writeAt (writeAt (s ++ NUL :: rest) s.length (r2 ++ '\n' :: t))
        (s.length + (r2 ++ '\n' :: t).length) [NUL] =
      (s ++ r2) ++ '\n' :: (t ++ NUL ::
        (writeAt (s ++ NUL :: rest) s.length (r2 ++ '\n' :: t)).drop
          (s.length + (r2 ++ '\n' :: t).length + 1)) := by
    have e : (writeAt (s ++ NUL :: rest) s.length (r2 ++ '\n' :: t)).take
        (s.length + (r2 ++ '\n' :: t).length) = s ++ (r2 ++ '\n' :: t) := by
      rw [writeAt, List.take_left]
      exact List.take_left' (by simp)
    rw [writeAt, e]
    simp
  have hnot : ¬ (s.length + 1 + READ_BLOCK_LEN > READ_BUF_SIZE) := by omega
  have hne : ¬ ((r2 ++ '\n' :: t).length = 0) := by simp
  refine ⟨((s ++ r2) ++ '\n' :: (t ++ NUL ::
        (writeAt (s ++ NUL :: rest) s.length (r2 ++ '\n' :: t)).drop
          (s.length + (r2 ++ '\n' :: t).length + 1))).drop (t.length + 1), ?_, ?_⟩
  · rw [read_next_line, hstr]
    simp only [hsl, hnot, if_false, hblock, hstr1, hne, hfile]
    rw [hw2]
    exact copy_line_spec (s ++ r2) t _ file1 hz ht
  · have l1 : (writeAt (s ++ NUL :: rest) s.length (r2 ++ '\n' :: t)).length =
        (s ++ NUL :: rest).length := writeAt_length _ _ _ (by rw [hblen]; omega)
    have l2 : (writeAt (writeAt (s ++ NUL :: rest) s.length (r2 ++ '\n' :: t))
        (s.length + (r2 ++ '\n' :: t).length) [NUL]).length = (s ++ NUL :: rest).length := by
      rw [writeAt_length _ _ _ (by rw [l1, hblen]; simp only [List.length_singleton]; omega), l1]
    rw [hw2] at l2
    generalize (s ++ r2) ++ '\n' :: (t ++ NUL ::
        (writeAt (s ++ NUL :: rest) s.length (r2 ++ '\n' :: t)).drop
          (s.length + (r2 ++ '\n' :: t).length + 1)) = x at l2 ⊢
    simp only [List.length_append, List.length_cons, List.length_drop] at hfit l2 ⊢
    omega

theorem take_drop_block (x : List Char) :
    ∀ (r2 : List Char) (n : Nat), r2.length ≤ n →
      (r2 ++ '\n' :: x).take (n + 1) = r2 ++ '\n' :: x.take (n - r2.length) ∧
      (r2 ++ '\n' :: x).drop (n + 1) = x.drop (n - r2.length) := by
  intro r2
  induction r2 with
  | nil => intro n _; simp
  | cons c cs ih =>
    intro n hn
    obtain ⟨m, rfl⟩ : ∃ m, n = m + 1 := ⟨n - 1, by simp at hn; omega⟩
    obtain ⟨e1, e2⟩ := ih m (by simp at hn; omega)
    simp only [List.cons_append, List.take_succ_cons, List.drop_succ_cons, List.length_cons,
      Nat.add_sub_add_right, e1, e2, and_self]

theorem bufferHolds_initial (records : List (List Char)) :
    BufferHolds ReadBuffer0 (stream_of records) records := by
  refine ⟨by simp [ReadBuffer0], [], List.replicate 255 NUL, ?_, by simp, by simp⟩
  show List.replicate (255 + 1) NUL = _
  rfl

theorem read_next_line_at_end (ReadBuffer file : List Char)
    (inv : BufferHolds ReadBuffer file []) :
    (read_next_line ReadBuffer file).rc = RC_EOF ∧ (read_next_line ReadBuffer file).line = none := by
  obtain ⟨_, s, rest, rfl, _, hst⟩ := inv
  simp only [stream_of, List.map_nil, List.flatten_nil, List.append_eq_nil] at hst
  obtain ⟨rfl, rfl⟩ := hst
  simp [read_next_line, strstr, strlen, writeAt, READ_BLOCK_LEN, READ_BUF_SIZE]

theorem read_next_line_step (ReadBuffer file r : List Char) (rs : List (List Char))
    (h1 : '\n' ∉ r) (h2 : NUL ∉ r) (h3 : r.length ≤ 69) (hrs : ∀ x ∈ rs, NUL ∉ x)
    (inv : BufferHolds ReadBuffer file (r :: rs)) :
    (read_next_line ReadBuffer file).rc = RC_NO_ERROR ∧
    (read_next_line ReadBuffer file).line = some r ∧
    BufferHolds (read_next_line ReadBuffer file).ReadBuffer
      (read_next_line ReadBuffer file).file rs := by
  obtain ⟨hlen, s, rest, rfl, hs, hst⟩ := inv
  rw [stream_of_cons] at hst
  have hz : NUL ∉ stream_of rs := NUL_not_mem_stream_of rs hrs
  by_cases hnl : '\n' ∈ s
  · obtain ⟨p, t, rfl, hp⟩ := List.eq_append_cons_of_mem hnl
    obtain ⟨rfl, ht⟩ := first_split_unique '\n' p r (t ++ file) (stream_of rs) hp h1
      (by simpa using hst)
    have htz : NUL ∉ t := fun e => hs (by simp [e])
    have hbuf : (p ++ '\n' :: t) ++ NUL :: rest = p ++ '\n' :: (t ++ NUL :: rest) := by simp
    rw [hbuf] at hlen ⊢
    rw [read_next_line_buffered p t rest file hp h2 htz]
    refine ⟨rfl, rfl, ?_, t, _, rfl, htz, ht⟩
    simp only [List.length_append, List.length_cons, List.length_drop] at hlen ⊢
    omega
  · obtain ⟨r2, rfl, hfile⟩ := prefix_of_no_newline s file r _ hnl hst
    have hr2n : '\n' ∉ r2 := fun e => h1 (by simp [e])
    have hr2z : NUL ∉ r2 := fun e => h2 (by simp [e])
    have hr2l : r2.length ≤ 99 := by simp at h3; omega
    obtain ⟨e1, e2⟩ := take_drop_block (stream_of rs) r2 99 hr2l
    have htz : NUL ∉ (stream_of rs).take (99 - r2.length) :=
      fun e => hz (List.mem_of_mem_take e)
    have hsl : s.length ≤ 69 := by simp at h3; omega
    have htl : ((stream_of rs).take (99 - r2.length)).length ≤ 99 - r2.length :=
      List.length_take_le _ _
    obtain ⟨rest1, heq, hl⟩ := read_next_line_refill s rest r2
      ((stream_of rs).take (99 - r2.length)) ((stream_of rs).drop (99 - r2.length)) file
      hnl hs hr2n hr2z htz (by simp only [READ_BLOCK_LEN, READ_BUF_SIZE]; omega)
      (by rw [hlen]; simp only [READ_BUF_SIZE]; omega)
      (by rw [hfile]; exact e1) (by rw [hfile]; exact e2)
    rw [heq]
    exact ⟨rfl, rfl, by rw [hl]; exact hlen, _, rest1, rfl, htz, List.take_append_drop _ _⟩

theorem read_lines_of_bufferHolds :
    ∀ (records : List (List Char)) (ReadBuffer file : List Char),
      (∀ r ∈ records, '\n' ∉ r ∧ NUL ∉ r ∧ r.length ≤ 69) →
      BufferHolds ReadBuffer file records →
      (read_lines (records.length + 1) ReadBuffer file).1 =
        records.map (fun r => (RC_NO_ERROR, some r)) ++ [(RC_EOF, none)] := by
  intro records
  induction records with
  | nil =>
    intro b f _ inv
    obtain ⟨e1, e2⟩ := read_next_line_at_end b f inv
    simp [read_lines, e1, e2]
  | cons r rs ih =>
    intro b f h inv
    obtain ⟨g1, g2, g3⟩ := h r (by simp)
    have hrs : ∀ x ∈ rs, '\n' ∉ x ∧ NUL ∉ x ∧ x.length ≤ 69 := fun x hx => h x (by simp [hx])
    obtain ⟨e1, e2, e3⟩ := read_next_line_step b f r rs g1 g2 g3 (fun x hx => (hrs x hx).2.1) inv
    have := ih _ _ hrs e3
    show (read_lines ((rs.length + 1) + 1) b f).1 = _
    rw [read_lines]
    simp only [e1, e2, this, List.map_cons, List.cons_append]

/-- C10. For every list of records, each free of newline and NUL and at most 69
bytes long, the stream made of the records each followed by a newline is read
back in order: starting from the all-zero `ReadBuffer`, the first n calls of
`read_next_line` return RC_NO_ERROR with the records r_1, ..., r_n (newline
stripped) and call n+1 returns RC_EOF without a line. -/
theorem read_next_line_yields_records (records : List (List Char))
    (h : ∀ r ∈ records, '\n' ∉ r ∧ NUL ∉ r ∧ r.length ≤ 69) :
    (read_lines (records.length + 1) ReadBuffer0 (stream_of records)).1 =
      records.map (fun r => (RC_NO_ERROR, some r)) ++ [(RC_EOF, none)] :=
  read_lines_of_bufferHolds records ReadBuffer0 (stream_of records) h
    (bufferHolds_initial records)

theorem read_next_line_yields_records_witness :
    (∀ r ∈ ["Melbourne,Sydney".toList, "".toList, "A-B".toList],
      '\n' ∉ r ∧ NUL ∉ r ∧ r.length ≤ 69) ∧
    (read_lines (["Melbourne,Sydney".toList, "".toList, "A-B".toList].length + 1) ReadBuffer0
        (stream_of ["Melbourne,Sydney".toList, "".toList, "A-B".toList])).1 =
      ["Melbourne,Sydney".toList, "".toList, "A-B".toList].map
        (fun r => (RC_NO_ERROR, some r)) ++ [(RC_EOF, none)] :=
  ⟨by decide, read_next_line_yields_records _ (by decide)⟩

/-! ## The tokenizer on streams that are not well formed -/

/-- C11 (Scenario E), evaluated on the code. The bytes of `fragment_stream` after its
last newline are the fragment "X,Y". The first two calls of `read_next_line`
return the two complete records; the third call returns RC_NO_ERROR with the
fragment "X,Y" as a record, and only the fourth returns RC_EOF. For every fuel
of at least 7 `build_routes_list` then ends with RC_EOF having registered the
pair (X,Y): is_route(X,Y) answers 1. -/
theorem fragment_returned_as_record (k : Nat) :
    fragment_stream.length = 103 ∧ fragment_stream.drop 100 = "X,Y".toList ∧
    fragment_stream.get? 99 = some '\n' ∧
    (read_lines 4 ReadBuffer0 fragment_stream).1 =
      [(RC_NO_ERROR, some "cccccccccccccccccccccccccccccc,dddddddddddddddddddddddddddddd".toList),
       (RC_NO_ERROR, some "eeeeeeeeeeeeeeeeee,ffffffffffffffffff".toList),
       (RC_NO_ERROR, some "X,Y".toList),
       (RC_EOF, none)] ∧
    ∃ r : BuildResult,
      build_routes_list (k + 7) ReadBuffer0 fragment_stream State.empty = some r ∧
      r.rc = RC_EOF ∧
      is_route (k + 7) r.st "X".toList "Y".toList = some (RC_NO_ERROR, some 1) := by
  refine ⟨by decide, by decide, by decide, by decide, ?_⟩
  have h1 : (build_routes_list 7 ReadBuffer0 fragment_stream State.empty).map
      (fun r => r.rc) = some RC_EOF := by decide
  have h2 : (build_routes_list 7 ReadBuffer0 fragment_stream State.empty).bind
      (fun r => is_route 7 r.st "X".toList "Y".toList) = some (RC_NO_ERROR, some 1) := by
    decide
  cases hb : build_routes_list 7 ReadBuffer0 fragment_stream State.empty with
  | none => rw [hb] at h1; exact absurd h1 (by simp)
  | some r =>
    rw [hb] at h1 h2
    exact ⟨r, build_routes_list_mono 7 (k + 7) _ _ _ _ (by omega) hb, by simpa using h1,
      is_route_mono 7 (k + 7) _ _ _ _ (by omega) h2⟩

set_option maxRecDepth 20000 in
/-- C12, evaluated on the code. On a stream of 300 bytes without a newline the
first `read_next_line` call already returns RC_EOF (so does the second; only the
third returns RC_NO_DELIMITER), and `build_routes_list` ends with RC_EOF, the
normal end-of-ingestion code, for every fuel of at least 1. -/
theorem long_record_reported_as_eof (k : Nat) :
    (read_lines 3 ReadBuffer0 (List.replicate 300 'a')).1 =
      [(RC_EOF, none), (RC_EOF, none), (RC_NO_DELIMITER, none)] ∧
    ∃ r : BuildResult,
      build_routes_list (k + 1) ReadBuffer0 (List.replicate 300 'a') State.empty = some r ∧
      r.rc = RC_EOF ∧ r.st = State.empty := by
  refine ⟨by decide, ?_⟩
  have h1 : (build_routes_list 1 ReadBuffer0 (List.replicate 300 'a') State.empty).map
      (fun r => (r.rc, r.st)) = some (RC_EOF, State.empty) := by decide
  cases hb : build_routes_list 1 ReadBuffer0 (List.replicate 300 'a') State.empty with
  | none => rw [hb] at h1; exact absurd h1 (by simp)
  | some r =>
    rw [hb] at h1
    simp only [Option.map_some', Option.some.injEq, Prod.mk.injEq] at h1
    exact ⟨r, build_routes_list_mono 1 (k + 1) _ _ _ _ (by omega) hb, h1.1, h1.2⟩

/-! ## The lookup and the traversal order -/

theorem members_mono (heap : List Node) :
    ∀ (fuel fuel1 : Nat) (p : Ptr) (l : List (Nat × List Char)), fuel ≤ fuel1 →
      members heap fuel p = some l → members heap fuel1 p = some l := by
  intro fuel
  induction fuel with
  | zero =>
    intro fuel1 p l _ h
    cases p with
    | none => cases fuel1 <;> simpa [members] using h
    | some q => simp [members] at h
  | succ n ih =>
    intro fuel1 p l hle h
    cases p with
    | none => cases fuel1 <;> simpa [members] using h
    | some q =>
      obtain ⟨m, rfl⟩ : ∃ m, fuel1 = m + 1 := ⟨fuel1 - 1, by omega⟩
      simp only [members] at h ⊢
      cases hq : heap[q]? with
      | none => simp [hq] at h
      | some nd =>
        simp only [hq, Option.map_eq_some'] at h ⊢
        obtain ⟨l1, h1, rfl⟩ := h
        exact ⟨l1, ih m _ _ (by omega) h1, rfl⟩

theorem groups_mono (heap : List Node) :
    ∀ (fuel fuel1 : Nat) (p : Ptr) (gs : List (Nat × List (Nat × List Char))), fuel ≤ fuel1 →
      groups heap fuel p = some gs → groups heap fuel1 p = some gs := by
  intro fuel
  induction fuel with
  | zero =>
    intro fuel1 p gs _ h
    cases p with
    | none => cases fuel1 <;> simpa [groups] using h
    | some q => simp [groups] at h
  | succ n ih =>
    intro fuel1 p gs hle h
    cases p with
    | none => cases fuel1 <;> simpa [groups] using h
    | some q =>
      obtain ⟨m, rfl⟩ : ∃ m, fuel1 = m + 1 := ⟨fuel1 - 1, by omega⟩
      simp only [groups] at h ⊢
      cases hq : heap[q]? with
      | none => simp [hq] at h
      | some nd =>
        simp only [hq] at h ⊢
        cases hm : members heap n (some q) with
        | none => simp [hm] at h
        | some g =>
          rw [members_mono heap n m _ _ (by omega) hm]
          simp only [hm, Option.map_eq_some'] at h ⊢
          obtain ⟨gs1, h1, rfl⟩ := h
          exact ⟨gs1, ih m _ _ (by omega) h1, rfl⟩

/-- The update the lookup makes to `(*node, *route)` at one visited member. -/
theorem find_in_route_eq (heap : List Node) (name : List Char) (_route : Nat) :
    ∀ (fuel : Nat) (p : Ptr) (out : Ptr × Ptr),
      find_in_route heap name _route fuel p out =
        (members heap fuel p).map (fun l =>
          l.foldl (fun o m => if m.2 = name then (some m.1, some _route) else o) out) := by
  intro fuel
  induction fuel with
  | zero =>
    intro p out
    cases p <;> simp [find_in_route, members]
  | succ n ih =>
    intro p out
    cases p with
    | none => simp [find_in_route, members]
    | some q =>
      simp only [find_in_route, members]
      cases hq : heap[q]? with
      | none => simp
      | some nd =>
        simp only [ih, Option.map_map]
        rfl

theorem find_in_list_eq (heap : List Node) (name : List Char) :
    ∀ (fuel : Nat) (p : Ptr) (out : Ptr × Ptr),
      find_in_list heap name fuel p out =
        (groups heap fuel p).map (fun gs =>
          (visits gs).foldl (fun o v => if v.2.1 = name then (some v.1, some v.2.2) else o)
            out) := by
  intro fuel
  induction fuel with
  | zero =>
    intro p out
    cases p <;> simp [find_in_list, groups, visits]
  | succ n ih =>
    intro p out
    cases p with
    | none => simp [find_in_list, groups, visits]
    | some q =>
      simp only [find_in_list, groups]
      cases hq : heap[q]? with
      | none => simp
      | some nd =>
        simp only [find_in_route_eq]
        cases hm : members heap n (some q) with
        | none => simp
        | some g =>
          simp only [Option.map_some', ih, Option.map_map]
          congr 1
          funext gs
          simp only [Function.comp, visits, List.flatMap_cons, List.foldl_append,
            List.foldl_map]

theorem foldl_last_match {α : Type} (p : α → Bool) (f : α → Ptr × Ptr) :
    ∀ (vs : List α) (out : Ptr × Ptr),
      vs.foldl (fun o v => if p v then f v else o) out =
        match (vs.filter p).getLast? with
        | none => out
        | some v => f v := by
  intro vs
  induction vs with
  | nil => intro out; rfl
  | cons v vs ih =>
    intro out
    rw [List.foldl_cons, ih]
    by_cases hv : p v
    · simp only [hv, if_true, List.filter_cons_of_pos, List.getLast?_cons]
      cases (List.filter p vs).getLast? <;> rfl
    · simp only [hv, List.filter_cons_of_neg, Bool.false_eq_true, if_false, not_false_eq_true]

theorem find_node_eq_last_match (fuel : Nat) (st : State) (name : List Char) :
    find_node_in_routes_list fuel st name =
      (groups st.heap fuel st.RoutesList).map (last_match name) := by
  rw [find_node_in_routes_list, find_in_list_eq]
  congr 1
  funext gs
  have h := foldl_last_match (fun v : Nat × List Char × Nat => decide (v.2.1 = name))
    (fun v => (some v.1, some v.2.2)) (visits gs) (none, none)
  simp only [decide_eq_true_eq] at h
  rw [h, last_match]
  cases (List.filter (fun v => decide (v.2.1 = name)) (visits gs)).getLast? <;> rfl

theorem last_match_eq_none_iff (name : List Char) (gs : List (Nat × List (Nat × List Char))) :
    last_match name gs = (none, none) ↔ ∀ v ∈ visits gs, v.2.1 ≠ name := by
  unfold last_match
  cases h : ((visits gs).filter (fun v => v.2.1 = name)).getLast? with
  | none =>
    simp only [List.getLast?_eq_none_iff, List.filter_eq_nil_iff, decide_eq_true_eq] at h
    simpa using h
  | some v =>
    have hv := List.mem_of_getLast?_eq_some h
    simp only [List.mem_filter, decide_eq_true_eq] at hv
    constructor
    · intro e; simp at e
    · intro e; exact absurd hv.2 (e v hv.1)

theorem last_match_of_split (name : List Char) (gs : List (Nat × List (Nat × List Char)))
    (pre post : List (Nat × List Char × Nat)) (v : Nat × List Char × Nat)
    (hsplit : visits gs = pre ++ v :: post) (hv : v.2.1 = name)
    (hpost : ∀ w ∈ post, w.2.1 ≠ name) :
    last_match name gs = (some v.1, some v.2.2) := by
  have hf : (visits gs).filter (fun v => v.2.1 = name) =
      pre.filter (fun v => v.2.1 = name) ++ [v] := by
    rw [hsplit, List.filter_append, List.filter_cons_of_pos (by simpa using hv)]
    have : post.filter (fun v => decide (v.2.1 = name)) = [] := by
      simpa [List.filter_eq_nil_iff] using hpost
    rw [this]
  unfold last_match
  rw [hf, List.getLast?_concat]

/-- C17. On every partition whose traversal ends (the groups `gs` are reached
within the fuel, so the chains are acyclic), `find_node_in_routes_list` returns
with both pointers NULL exactly when no visited member carries the name; and
when `v` is the last member named `name` in traversal order (groups in
group-chain order, within a group the entry point first), it returns the address
of `v` and the entry point of the group under which `v` is visited. -/
theorem find_returns_last_occurrence (fuel : Nat) (st : State) (name : List Char)
    (gs : List (Nat × List (Nat × List Char)))
    (h : groups st.heap fuel st.RoutesList = some gs) :
    (find_node_in_routes_list fuel st name = some (none, none) ↔
      ∀ v ∈ visits gs, v.2.1 ≠ name) ∧
    (∀ pre v post, visits gs = pre ++ v :: post → v.2.1 = name →
      (∀ w ∈ post, w.2.1 ≠ name) →
      find_node_in_routes_list fuel st name = some (some v.1, some v.2.2)) := by
  have hf : find_node_in_routes_list fuel st name = some (last_match name gs) := by
    rw [find_node_eq_last_match, h]; rfl
  constructor
  · rw [hf, Option.some.injEq]
    exact last_match_eq_none_iff name gs
  · intro pre v post hsplit hv hpost
    rw [hf, last_match_of_split name gs pre post v hsplit hv hpost]

theorem find_returns_last_occurrence_witness :
    groups
      (State.mk [⟨"A".toList, some 1, none⟩, ⟨"A".toList, none, none⟩,
        ⟨"B".toList, some 3, some 0⟩, ⟨"C".toList, none, none⟩] (some 2)).heap 4
      (State.mk [⟨"A".toList, some 1, none⟩, ⟨"A".toList, none, none⟩,
        ⟨"B".toList, some 3, some 0⟩, ⟨"C".toList, none, none⟩] (some 2)).RoutesList
      = some [(2, [(2, "B".toList), (3, "C".toList)]), (0, [(0, "A".toList), (1, "A".toList)])] ∧
    ((find_node_in_routes_list 4
        (State.mk [⟨"A".toList, some 1, none⟩, ⟨"A".toList, none, none⟩,
          ⟨"B".toList, some 3, some 0⟩, ⟨"C".toList, none, none⟩] (some 2)) "A".toList
          = some (none, none) ↔
      ∀ v ∈ visits [(2, [(2, "B".toList), (3, "C".toList)]),
          (0, [(0, "A".toList), (1, "A".toList)])], v.2.1 ≠ "A".toList) ∧
    (∀ pre v post,
      visits [(2, [(2, "B".toList), (3, "C".toList)]),
          (0, [(0, "A".toList), (1, "A".toList)])] = pre ++ v :: post →
      v.2.1 = "A".toList → (∀ w ∈ post, w.2.1 ≠ "A".toList) →
      find_node_in_routes_list 4
        (State.mk [⟨"A".toList, some 1, none⟩, ⟨"A".toList, none, none⟩,
          ⟨"B".toList, some 3, some 0⟩, ⟨"C".toList, none, none⟩] (some 2)) "A".toList
          = some (some v.1, some v.2.2))) :=
  ⟨by decide, find_returns_last_occurrence 4 _ _ _ (by decide)⟩

/-- C13. For every state, fuel and names: `is_route` returns exactly when the
lookups of the two names return; it then returns RC_NO_EXIST, storing no result,
if the lookup of `name_1` or of `name_2` leaves `*node` NULL, and otherwise
RC_NO_ERROR with result 1 when the two lookups leave the same `*route` (group
entry point) and result 0 when they leave different ones. -/
theorem is_route_contract (fuel : Nat) (st : State) (name_1 name_2 : List Char) :
    is_route fuel st name_1 name_2 =
      (find_node_in_routes_list fuel st name_1).bind (fun f1 =>
        (find_node_in_routes_list fuel st name_2).map (fun f2 =>
          if f1.1 = none ∨ f2.1 = none then (RC_NO_EXIST, none)
          else if f1.2 = f2.2 then (RC_NO_ERROR, some 1)
          else (RC_NO_ERROR, some 0))) := by
  unfold is_route
  rw [find_node_eq_last_match fuel st name_1, find_node_eq_last_match fuel st name_2]
  cases hg : groups st.heap fuel st.RoutesList with
  | none => rfl
  | some gs =>
    simp only [Option.map_some', Option.some_bind]
    by_cases h1 : (last_match name_1 gs).1 = none
    · simp [h1]
    · by_cases h2 : (last_match name_2 gs).1 = none
      · simp [h1, h2]
      · simp only [h1, h2, if_false, or_self]
        split_ifs <;> rfl

/-! ## Reachable states that break the partition invariants -/

/-- C14, evaluated on the code. register(A,A) on the empty partition succeeds for
every fuel and allocates two nodes named A, the entry point of the new group and
its second member: the name A, registered once, is carried by two members of
the partition. -/
theorem equal_names_make_two_members (k : Nat) :
    register_all k State.empty [("A".toList, "A".toList)] =
      some ⟨[⟨"A".toList, some 1, none⟩, ⟨"A".toList, none, none⟩], some 0⟩ ∧
    groups [⟨"A".toList, some 1, none⟩, ⟨"A".toList, none, none⟩] (k + 3) (some 0) =
      some [(0, [(0, "A".toList), (1, "A".toList)])] ∧
    ((visits [(0, [(0, "A".toList), (1, "A".toList)])]).filter
      (fun v => v.2.1 = "A".toList)).length = 2 := by
  refine ⟨?_, ?_, by decide⟩
  · exact register_all_mono 0 k (by omega) _ _ _ (by decide)
  · exact groups_mono _ 3 (k + 3) _ _ (by omega) (by decide)

/-- C15, evaluated on the code. The state reached by register(X,Y), register(A,B),
register(C,D) has the group chain C, A, X, each group with two members. After
merge_routes(C, A) the group chain from RoutesList is C, A: the absorbed group A
is still in the chain and the group X, which followed it, is no longer reached.
Group C holds the former members of both groups (C, A, B, D), and the chain that
starts at A now runs on into D. -/
theorem merge_keeps_absorbed_group_in_chain (k : Nat) :
    ∃ st st1 : State,
      register_all (k + 5) State.empty
        [("X".toList, "Y".toList), ("A".toList, "B".toList), ("C".toList, "D".toList)]
        = some st ∧
      groups st.heap (k + 5) st.RoutesList =
        some [(4, [(4, "C".toList), (5, "D".toList)]), (2, [(2, "A".toList), (3, "B".toList)]),
              (0, [(0, "X".toList), (1, "Y".toList)])] ∧
      merge_routes (k + 5) st (some 4) (some 2) = some st1 ∧
      groups st1.heap (k + 5) st1.RoutesList =
        some [(4, [(4, "C".toList), (2, "A".toList), (3, "B".toList), (5, "D".toList)]),
              (2, [(2, "A".toList), (3, "B".toList), (5, "D".toList)])] := by
  refine ⟨⟨[⟨"X".toList, some 1, none⟩, ⟨"Y".toList, none, none⟩,
            ⟨"A".toList, some 3, some 0⟩, ⟨"B".toList, none, none⟩,
            ⟨"C".toList, some 5, some 2⟩, ⟨"D".toList, none, none⟩], some 4⟩,
          ⟨[⟨"X".toList, some 1, none⟩, ⟨"Y".toList, none, none⟩,
            ⟨"A".toList, some 3, none⟩, ⟨"B".toList, some 5, none⟩,
            ⟨"C".toList, some 2, some 2⟩, ⟨"D".toList, none, none⟩], some 4⟩, ?_, ?_, ?_, ?_⟩
  · exact register_all_mono 5 (k + 5) (by omega) _ _ _ (by decide)
  · exact groups_mono _ 5 (k + 5) _ _ (by omega) (by decide)
  · exact merge_routes_mono 5 (k + 5) _ _ _ _ (by omega) (by decide)
  · exact groups_mono _ 5 (k + 5) _ _ (by omega) (by decide)

/-- C16, evaluated on the code. The register calls (C,D), (A,B), (A,C), (A,C) on
the empty partition all return, for every fuel of at least 5, and leave
`cyclicState`, whose member chain from group A never ends. On that reachable
state the traversal, `find_node_in_routes_list`, `add_pair_to_routes_list` and
`is_route` return for no fuel and no names. -/
theorem reachable_state_with_cycle :
    (∀ k, register_all (k + 5) State.empty [("C".toList, "D".toList), ("A".toList, "B".toList),
        ("A".toList, "C".toList), ("A".toList, "C".toList)] = some cyclicState) ∧
    ∀ (fuel : Nat) (name_1 name_2 : List Char),
      groups cyclicState.heap fuel cyclicState.RoutesList = none ∧
      find_node_in_routes_list fuel cyclicState name_1 = none ∧
      add_pair_to_routes_list fuel cyclicState name_1 name_2 = none ∧
      is_route fuel cyclicState name_1 name_2 = none := by
  refine ⟨fun k => register_all_mono 5 (k + 5) (by omega) _ _ _ (by decide), ?_⟩
  intro fuel name_1 name_2
  have hf := cyclicState_find_diverges fuel name_1
  refine ⟨?_, hf, ?_, ?_⟩
  · rw [find_node_eq_last_match] at hf
    simpa using hf
  · simp [add_pair_to_routes_list, hf]
  · simp [is_route, hf]

/-! ## Register on a partition whose traversal ends -/

theorem modify_append_length {α : Type} (f : α → α) (a : α) (t : List α) :
    ∀ l : List α, (l ++ a :: t).modify f l.length = l ++ f a :: t := by
  intro l
  induction l with
  | nil => rfl
  | cons b l ih =>
    show (b :: (l ++ a :: t)).modify f (l.length + 1) = b :: (l ++ f a :: t)
    rw [List.modify_succ_cons, ih]

theorem getElem?_append_of_some {α : Type} (l ext : List α) (i : Nat) (a : α)
    (h : l[i]? = some a) : (l ++ ext)[i]? = some a := by
  have hi : i < l.length := by
    by_contra hc
    rw [List.getElem?_eq_none (by omega)] at h
    exact absurd h (by simp)
  rw [List.getElem?_append_left hi, h]

theorem members_append (heap ext : List Node) :
    ∀ (fuel : Nat) (p : Ptr) (l : List (Nat × List Char)),
      members heap fuel p = some l → members (heap ++ ext) fuel p = some l := by
  intro fuel
  induction fuel with
  | zero =>
    intro p l h
    cases p with
    | none => simpa [members] using h
    | some q => simp [members] at h
  | succ n ih =>
    intro p l h
    cases p with
    | none => simpa [members] using h
    | some q =>
      simp only [members] at h ⊢
      cases hq : heap[q]? with
      | none => simp [hq] at h
      | some nd =>
        rw [getElem?_append_of_some heap ext q nd hq]
        simp only [hq, Option.map_eq_some'] at h ⊢
        obtain ⟨l1, h1, rfl⟩ := h
        exact ⟨l1, ih _ _ h1, rfl⟩

theorem groups_append (heap ext : List Node) :
    ∀ (fuel : Nat) (p : Ptr) (gs : List (Nat × List (Nat × List Char))),
      groups heap fuel p = some gs → groups (heap ++ ext) fuel p = some gs := by
  intro fuel
  induction fuel with
  | zero =>
    intro p gs h
    cases p with
    | none => simpa [groups] using h
    | some q => simp [groups] at h
  | succ n ih =>
    intro p gs h
    cases p with
    | none => simpa [groups] using h
    | some q =>
      simp only [groups] at h ⊢
      cases hq : heap[q]? with
      | none => simp [hq] at h
      | some nd =>
        rw [getElem?_append_of_some heap ext q nd hq]
        simp only [hq] at h ⊢
        cases hm : members heap n (some q) with
        | none => simp [hm] at h
        | some g =>
          rw [members_append heap ext n _ _ hm]
          simp only [hm, Option.map_eq_some'] at h ⊢
          obtain ⟨gs1, h1, rfl⟩ := h
          exact ⟨gs1, ih _ _ h1, rfl⟩

/-- The state `add_pair_to_routes_list` builds in its first branch. -/
theorem add_pair_new_group (fuel : Nat) (st : State) (name_1 name_2 : List Char)
    (r1 r2 : Ptr)
    (h1 : find_node_in_routes_list fuel st name_1 = some (none, r1))
    (h2 : find_node_in_routes_list fuel st name_2 = some (none, r2)) :
    add_pair_to_routes_list fuel st name_1 name_2 =
      some (RC_NO_ERROR,
        ⟨st.heap ++ [⟨name_1, some (st.heap.length + 1), st.RoutesList⟩, ⟨name_2, none, none⟩],
         some st.heap.length⟩) := by
  have e1 : (st.heap ++ [(⟨name_1, none, st.RoutesList⟩ : Node)])[st.heap.length]? =
      some ⟨name_1, none, st.RoutesList⟩ := List.getElem?_concat_length _ _
  have e2 := modify_append_length (fun nd : Node => { nd with route := some (st.heap.length + 1) })
    ⟨name_1, none, st.RoutesList⟩ [⟨name_2, none, none⟩] st.heap
  simp only [add_pair_to_routes_list, h1, h2, and_self, if_true, add_new_route,
    add_node_to_route, e1, setRoute, List.length_append, List.length_singleton,
    List.append_assoc, List.singleton_append, e2]

theorem not_found_iff_no_visit (fuel : Nat) (st : State) (name : List Char)
    (gs : List (Nat × List (Nat × List Char)))
    (hg : groups st.heap fuel st.RoutesList = some gs) (r : Ptr)
    (h : find_node_in_routes_list fuel st name = some (none, r)) :
    ∀ v ∈ visits gs, v.2.1 ≠ name := by
  rw [find_node_eq_last_match, hg] at h
  simp only [Option.map_some', Option.some.injEq] at h
  have hn : last_match name gs = (none, none) := by
    unfold last_match at h ⊢
    cases hl : ((visits gs).filter (fun v => v.2.1 = name)).getLast? with
    | none => rfl
    | some v => rw [hl] at h; simp at h
  exact (last_match_eq_none_iff name gs).mp hn

theorem groups_new_group (heap : List Node) (fuel : Nat) (next : Ptr)
    (name_1 name_2 : List Char) (gs : List (Nat × List (Nat × List Char)))
    (hg : groups heap fuel next = some gs) :
    groups (heap ++ [⟨name_1, some (heap.length + 1), next⟩, ⟨name_2, none, none⟩])
      (fuel + 3) (some heap.length) =
      some ((heap.length, [(heap.length, name_1), (heap.length + 1, name_2)]) :: gs) := by
  have hL0 : (heap ++ [(⟨name_1, some (heap.length + 1), next⟩ : Node),
      ⟨name_2, none, none⟩])[heap.length]? =
      some ⟨name_1, some (heap.length + 1), next⟩ := by
    rw [List.getElem?_append_right (Nat.le_refl _)]
    simp
  have hL1 : (heap ++ [(⟨name_1, some (heap.length + 1), next⟩ : Node),
      ⟨name_2, none, none⟩])[heap.length + 1]? = some ⟨name_2, none, none⟩ := by
    rw [List.getElem?_append_right (by omega)]
    simp
  have hold := groups_mono _ fuel (fuel + 2) _ _ (by omega)
    (groups_append heap [⟨name_1, some (heap.length + 1), next⟩,
      ⟨name_2, none, none⟩] fuel _ _ hg)
  simp only [groups, members, hL0, hL1, hold, Option.map_some']

/-- C18. On every partition whose traversal ends within the fuel (groups `gs`), if
the lookup finds neither `name_1` nor `name_2`, then
`add_pair_to_routes_list(name_1, name_2)` returns RC_NO_ERROR having appended two
nodes to the heap and nothing else: the new group entry point named `name_1`,
placed at the head of the group chain, and its only other member, named
`name_2`. The groups of the new state are the new group followed by the old
groups `gs` unchanged, and `is_route(name_1, name_2)` then returns RC_NO_ERROR
with result 1. -/
theorem register_two_unknown_names (fuel : Nat) (st : State) (name_1 name_2 : List Char)
    (gs : List (Nat × List (Nat × List Char)))
    (hg : groups st.heap fuel st.RoutesList = some gs)
    (h1 : find_node_in_routes_list fuel st name_1 = some (none, none))
    (h2 : find_node_in_routes_list fuel st name_2 = some (none, none)) :
    add_pair_to_routes_list fuel st name_1 name_2 =
      some (RC_NO_ERROR,
        ⟨st.heap ++ [⟨name_1, some (st.heap.length + 1), st.RoutesList⟩, ⟨name_2, none, none⟩],
         some st.heap.length⟩) ∧
    groups
      (st.heap ++ [⟨name_1, some (st.heap.length + 1), st.RoutesList⟩, ⟨name_2, none, none⟩])
      (fuel + 3) (some st.heap.length) =
      some ((st.heap.length, [(st.heap.length, name_1), (st.heap.length + 1, name_2)]) :: gs) ∧
    is_route (fuel + 3)
      ⟨st.heap ++ [⟨name_1, some (st.heap.length + 1), st.RoutesList⟩, ⟨name_2, none, none⟩],
       some st.heap.length⟩ name_1 name_2 = some (RC_NO_ERROR, some 1) := by
  have hgs := groups_new_group st.heap fuel st.RoutesList name_1 name_2 gs hg
  refine ⟨add_pair_new_group fuel st name_1 name_2 none none h1 h2, hgs, ?_⟩
  have n1 := not_found_iff_no_visit fuel st name_1 gs hg none h1
  have n2 := not_found_iff_no_visit fuel st name_2 gs hg none h2
  have hv : visits ((st.heap.length,
      [(st.heap.length, name_1), (st.heap.length + 1, name_2)]) :: gs) =
      [(st.heap.length, name_1, st.heap.length), (st.heap.length + 1, name_2, st.heap.length)]
        ++ visits gs := by
    simp [visits]
  have m2 : last_match name_2 ((st.heap.length,
      [(st.heap.length, name_1), (st.heap.length + 1, name_2)]) :: gs) =
      (some (st.heap.length + 1), some st.heap.length) :=
    last_match_of_split name_2 _ [(st.heap.length, name_1, st.heap.length)] (visits gs)
      (st.heap.length + 1, name_2, st.heap.length) (by rw [hv]; rfl) rfl n2
  have m1 : ∃ n, last_match name_1 ((st.heap.length,
      [(st.heap.length, name_1), (st.heap.length + 1, name_2)]) :: gs) =
      (some n, some st.heap.length) := by
    by_cases he : name_2 = name_1
    · exact ⟨st.heap.length + 1, he ▸ m2⟩
    · refine ⟨st.heap.length, last_match_of_split name_1 _ []
        ((st.heap.length + 1, name_2, st.heap.length) :: visits gs)
        (st.heap.length, name_1, st.heap.length) (by rw [hv]; rfl) rfl ?_⟩
      intro w hw
      rcases List.mem_cons.mp hw with rfl | hw
      · exact he
      · exact n1 w hw
  obtain ⟨n, m1⟩ := m1
  rw [is_route_contract, find_node_eq_last_match, find_node_eq_last_match]
  simp only [hgs, Option.map_some', Option.some_bind, m1, m2]
  simp

theorem register_two_unknown_names_witness :
    groups (State.mk [⟨"C".toList, some 1, none⟩, ⟨"D".toList, none, none⟩] (some 0)).heap 3
      (State.mk [⟨"C".toList, some 1, none⟩, ⟨"D".toList, none, none⟩] (some 0)).RoutesList
      = some [(0, [(0, "C".toList), (1, "D".toList)])] ∧
    add_pair_to_routes_list 3
      (State.mk [⟨"C".toList, some 1, none⟩, ⟨"D".toList, none, none⟩] (some 0))
      "A".toList "B".toList =
      some (RC_NO_ERROR,
        ⟨[⟨"C".toList, some 1, none⟩, ⟨"D".toList, none, none⟩] ++
          [⟨"A".toList, some (2 + 1), some 0⟩, ⟨"B".toList, none, none⟩], some 2⟩) ∧
    groups ([⟨"C".toList, some 1, none⟩, ⟨"D".toList, none, none⟩] ++
          [⟨"A".toList, some (2 + 1), some 0⟩, ⟨"B".toList, none, none⟩]) (3 + 3) (some 2) =
      some ((2, [(2, "A".toList), (2 + 1, "B".toList)]) ::
        [(0, [(0, "C".toList), (1, "D".toList)])]) ∧
    is_route (3 + 3)
      ⟨[⟨"C".toList, some 1, none⟩, ⟨"D".toList, none, none⟩] ++
          [⟨"A".toList, some (2 + 1), some 0⟩, ⟨"B".toList, none, none⟩], some 2⟩
      "A".toList "B".toList = some (RC_NO_ERROR, some 1) :=
  ⟨by decide, register_two_unknown_names 3
    (State.mk [⟨"C".toList, some 1, none⟩, ⟨"D".toList, none, none⟩] (some 0))
    "A".toList "B".toList _ (by decide) (by decide) (by decide)⟩

/-! ## Every sibling link joins connected names -/

theorem connected_refl (pairs : List (List Char × List Char)) (x : List Char) :
    Connected pairs x x := Relation.EqvGen.refl x

theorem connected_symm {pairs : List (List Char × List Char)} {x y : List Char}
    (h : Connected pairs x y) : Connected pairs y x := Relation.EqvGen.symm x y h

theorem connected_trans {pairs : List (List Char × List Char)} {x y z : List Char}
    (h1 : Connected pairs x y) (h2 : Connected pairs y z) : Connected pairs x z :=
  Relation.EqvGen.trans x y z h1 h2

theorem connected_of_mem {pairs : List (List Char × List Char)} {a b : List Char}
    (h : (a, b) ∈ pairs) : Connected pairs a b := Relation.EqvGen.rel a b h

theorem connected_mono {pairs pairs1 : List (List Char × List Char)} {x y : List Char}
    (hsub : ∀ p ∈ pairs, p ∈ pairs1) (h : Connected pairs x y) : Connected pairs1 x y :=
  Relation.EqvGen.mono (fun a b hab => hsub (a, b) hab) h

theorem name_at_setRoute (heap : List Node) (p : Nat) (v : Ptr) (i : Nat) :
    name_at (setRoute heap p v) i = name_at heap i := by
  simp only [name_at, setRoute, List.getElem?_modify]
  cases heap[i]? with
  | none => rfl
  | some nd => by_cases h : p = i <;> simp [h]

theorem route_at_setRoute (heap : List Node) (p : Nat) (v : Ptr) (i : Nat) :
    route_at (setRoute heap p v) i =
      if p = i then (route_at heap i).map (fun _ => v) else route_at heap i := by
  simp only [route_at, setRoute, List.getElem?_modify]
  cases heap[i]? with
  | none => by_cases h : p = i <;> simp [h]
  | some nd => by_cases h : p = i <;> simp [h]

theorem name_at_setNext (heap : List Node) (p : Nat) (v : Ptr) (i : Nat) :
    name_at (setNext heap p v) i = name_at heap i := by
  simp only [name_at, setNext, List.getElem?_modify]
  cases heap[i]? with
  | none => rfl
  | some nd => by_cases h : p = i <;> simp [h]

theorem route_at_setNext (heap : List Node) (p : Nat) (v : Ptr) (i : Nat) :
    route_at (setNext heap p v) i = route_at heap i := by
  simp only [route_at, setNext, List.getElem?_modify]
  cases heap[i]? with
  | none => rfl
  | some nd => by_cases h : p = i <;> simp [h]

theorem name_at_lt (heap : List Node) (i : Nat) (x : List Char)
    (h : name_at heap i = some x) : i < heap.length := by
  by_contra hc
  simp [name_at, List.getElem?_eq_none (Nat.le_of_not_lt hc)] at h

theorem name_at_append (heap ext : List Node) (i : Nat) (x : List Char)
    (h : name_at heap i = some x) : name_at (heap ++ ext) i = some x := by
  have hi := name_at_lt heap i x h
  simpa [name_at, List.getElem?_append_left hi] using h

theorem edges_mono {pairs pairs1 : List (List Char × List Char)} {heap : List Node}
    (hsub : ∀ p ∈ pairs, p ∈ pairs1) (h : EdgesConnected pairs heap) :
    EdgesConnected pairs1 heap := by
  intro p q x hr hn
  obtain ⟨y, hy, hc⟩ := h p q x hr hn
  exact ⟨y, hy, connected_mono hsub hc⟩

theorem edges_setNext {pairs : List (List Char × List Char)} {heap : List Node}
    (h : EdgesConnected pairs heap) (p : Nat) (v : Ptr) :
    EdgesConnected pairs (setNext heap p v) := by
  intro i q x hr hn
  rw [route_at_setNext] at hr
  rw [name_at_setNext] at hn
  obtain ⟨y, hy, hc⟩ := h i q x hr hn
  exact ⟨y, by rw [name_at_setNext]; exact hy, hc⟩

theorem edges_setRoute {pairs : List (List Char × List Char)} {heap : List Node}
    (h : EdgesConnected pairs heap) (p : Nat) (v : Ptr)
    (hnew : ∀ q x, v = some q → name_at heap p = some x →
      ∃ y, name_at heap q = some y ∧ Connected pairs x y) :
    EdgesConnected pairs (setRoute heap p v) := by
  intro i q x hr hn
  rw [route_at_setRoute] at hr
  rw [name_at_setRoute] at hn
  by_cases hp : p = i
  · subst hp
    simp only [if_true, Option.map_eq_some'] at hr
    obtain ⟨_, _, hv⟩ := hr
    obtain ⟨y, hy, hc⟩ := hnew q x hv hn
    exact ⟨y, by rw [name_at_setRoute]; exact hy, hc⟩
  · simp only [hp, if_false] at hr
    obtain ⟨y, hy, hc⟩ := h i q x hr hn
    exact ⟨y, by rw [name_at_setRoute]; exact hy, hc⟩

theorem edges_append {pairs : List (List Char × List Char)} {heap : List Node}
    (h : EdgesConnected pairs heap) (nd : Node)
    (hnew : ∀ q, nd.route = some q →
      ∃ y, name_at heap q = some y ∧ Connected pairs nd.name y) :
    EdgesConnected pairs (heap ++ [nd]) := by
  intro i q x hr hn
  have hi : i < (heap ++ [nd]).length := name_at_lt _ i x hn
  simp only [List.length_append, List.length_singleton] at hi
  by_cases hlt : i < heap.length
  · simp only [route_at, name_at, List.getElem?_append_left hlt] at hr hn
    obtain ⟨y, hy, hc⟩ := h i q x hr hn
    exact ⟨y, name_at_append heap [nd] q y hy, hc⟩
  · have he : i = heap.length := by omega
    subst he
    simp only [route_at, name_at, List.getElem?_concat_length, Option.map_some',
      Option.some.injEq] at hr hn
    subst hn
    obtain ⟨y, hy, hc⟩ := hnew q hr
    exact ⟨y, name_at_append heap [nd] q y hy, hc⟩

theorem members_connected {pairs : List (List Char × List Char)} {heap : List Node}
    (h : EdgesConnected pairs heap) :
    ∀ (fuel r : Nat) (l : List (Nat × List Char)) (x : List Char),
      members heap fuel (some r) = some l → name_at heap r = some x →
      ∀ m ∈ l, Connected pairs x m.2 := by
  intro fuel
  induction fuel with
  | zero => intro r l x hm; simp [members] at hm
  | succ n ih =>
    intro r l x hm hx m hmem
    simp only [members] at hm
    cases hr : heap[r]? with
    | none => simp [hr] at hm
    | some nd =>
      simp only [hr, Option.map_eq_some'] at hm
      obtain ⟨l1, hl1, rfl⟩ := hm
      have hxn : x = nd.name := by simpa [name_at, hr] using hx.symm
      rcases List.mem_cons.mp hmem with rfl | hm1
      · rw [hxn]; exact connected_refl pairs _
      · cases hq : nd.route with
        | none =>
          rw [hq] at hl1
          cases n <;> simp [members] at hl1 <;> simp [hl1] at hm1
        | some q =>
          rw [hq] at hl1
          obtain ⟨y, hy, hc⟩ := h r q x (by simp [route_at, hr, hq]) hx
          exact connected_trans hc (ih q l1 y hl1 hy m hm1)

theorem members_some_name (heap : List Node) (fuel r : Nat) (l : List (Nat × List Char))
    (h : members heap fuel (some r) = some l) : ∃ x, name_at heap r = some x := by
  cases fuel with
  | zero => simp [members] at h
  | succ n =>
    simp only [members] at h
    cases hr : heap[r]? with
    | none => simp [hr] at h
    | some nd => exact ⟨nd.name, by simp [name_at, hr]⟩

theorem merge_last_connected {pairs : List (List Char × List Char)} {heap : List Node}
    (h : EdgesConnected pairs heap) :
    ∀ (fuel r last : Nat) (x : List Char),
      merge_last heap fuel r = some last → name_at heap r = some x →
      ∃ y, name_at heap last = some y ∧ Connected pairs x y := by
  intro fuel
  induction fuel with
  | zero => intro r last x hm; simp [merge_last] at hm
  | succ n ih =>
    intro r last x hm hx
    simp only [merge_last] at hm
    cases hr : heap[r]? with
    | none => simp [hr] at hm
    | some nd =>
      simp only [hr] at hm
      cases hq : nd.route with
      | none =>
        simp only [hq, Option.some.injEq] at hm
        subst hm
        exact ⟨x, hx, connected_refl pairs x⟩
      | some q =>
        simp only [hq] at hm
        obtain ⟨y, hy, hc⟩ := h r q x (by simp [route_at, hr, hq]) hx
        obtain ⟨z, hz, hc2⟩ := ih q last y hm hy
        exact ⟨z, hz, connected_trans hc hc2⟩

theorem groups_mem (heap : List Node) :
    ∀ (fuel : Nat) (p : Ptr) (gs : List (Nat × List (Nat × List Char))),
      groups heap fuel p = some gs →
      ∀ g ∈ gs, ∃ fuel1, members heap fuel1 (some g.1) = some g.2 := by
  intro fuel
  induction fuel with
  | zero =>
    intro p gs h g hg
    cases p with
    | none => simp [groups] at h; subst h; simp at hg
    | some q => simp [groups] at h
  | succ n ih =>
    intro p gs h g hg
    cases p with
    | none => simp [groups] at h; subst h; simp at hg
    | some q =>
      simp only [groups] at h
      cases hq : heap[q]? with
      | none => simp [hq] at h
      | some nd =>
        simp only [hq] at h
        cases hm : members heap n (some q) with
        | none => simp [hm] at h
        | some g0 =>
          simp only [hm, Option.map_eq_some'] at h
          obtain ⟨gs1, h1, rfl⟩ := h
          rcases List.mem_cons.mp hg with rfl | hg1
          · exact ⟨n, hm⟩
          · exact ih _ _ h1 g hg1

theorem mem_visits {gs : List (Nat × List (Nat × List Char))} {v : Nat × List Char × Nat} :
    v ∈ visits gs ↔ ∃ g ∈ gs, (v.1, v.2.1) ∈ g.2 ∧ v.2.2 = g.1 := by
  simp only [visits, List.mem_flatMap, List.mem_map]
  constructor
  · rintro ⟨g, hg, m, hm, rfl⟩
    exact ⟨g, hg, hm, rfl⟩
  · rintro ⟨g, hg, hm, he⟩
    exact ⟨g, hg, (v.1, v.2.1), hm, by rw [← he]⟩

/-- What a successful lookup returns: a visited member that carries the name, with
the entry point of the group under which it is visited. -/
theorem found_is_visit (fuel : Nat) (st : State) (name : List Char) (n : Nat) (rp : Ptr)
    (h : find_node_in_routes_list fuel st name = some (some n, rp)) :
    ∃ gs r, groups st.heap fuel st.RoutesList = some gs ∧ rp = some r ∧
      (n, name, r) ∈ visits gs := by
  rw [find_node_eq_last_match] at h
  cases hg : groups st.heap fuel st.RoutesList with
  | none => simp [hg] at h
  | some gs =>
    simp only [hg, Option.map_some', Option.some.injEq] at h
    unfold last_match at h
    cases hl : ((visits gs).filter (fun v => v.2.1 = name)).getLast? with
    | none => rw [hl] at h; simp at h
    | some v =>
      rw [hl] at h
      simp only [Prod.mk.injEq, Option.some.injEq] at h
      have hv := List.mem_of_getLast?_eq_some hl
      simp only [List.mem_filter, decide_eq_true_eq] at hv
      refine ⟨gs, v.2.2, rfl, h.2.symm, ?_⟩
      have : (n, name, v.2.2) = v := by
        rw [← h.1, ← hv.2]
      rw [this]
      exact hv.1

theorem found_connected {pairs : List (List Char × List Char)} (fuel : Nat) (st : State)
    (h : EdgesConnected pairs st.heap) (name : List Char) (n : Nat) (rp : Ptr)
    (hf : find_node_in_routes_list fuel st name = some (some n, rp)) :
    ∃ r y, rp = some r ∧ name_at st.heap r = some y ∧ Connected pairs y name := by
  obtain ⟨gs, r, hg, hrp, hv⟩ := found_is_visit fuel st name n rp hf
  obtain ⟨g, hgm, hm, he⟩ := mem_visits.mp hv
  obtain ⟨fuel1, hmem⟩ := groups_mem st.heap fuel _ gs hg g hgm
  simp only at he hm
  subst he
  obtain ⟨y, hy⟩ := members_some_name st.heap fuel1 g.1 g.2 hmem
  exact ⟨g.1, y, hrp, hy, members_connected h fuel1 g.1 g.2 y hmem hy (n, name) hm⟩

theorem edges_add_node_to_route {pairs : List (List Char × List Char)} (st st1 : State)
    (name : List Char) (rp : Ptr) (rc : RETURN_CODE) (r : Nat) (y : List Char)
    (h : EdgesConnected pairs st.heap) (hrp : rp = some r)
    (hy : name_at st.heap r = some y) (hc : Connected pairs y name)
    (hadd : add_node_to_route st name rp = some (rc, st1)) :
    EdgesConnected pairs st1.heap := by
  subst hrp
  simp only [add_node_to_route] at hadd
  cases hr : st.heap[r]? with
  | none => simp [hr] at hadd
  | some rnode =>
    simp only [hr, Option.some.injEq, Prod.mk.injEq] at hadd
    obtain ⟨_, rfl⟩ := hadd
    have hyn : y = rnode.name := by simpa [name_at, hr] using hy.symm
    subst hyn
    have hlt : r < st.heap.length := name_at_lt _ _ _ hy
    apply edges_setRoute
    · apply edges_append h
      intro q hq
      have hq1 : rnode.route = some q := hq
      obtain ⟨z, hz, hcz⟩ := h r q rnode.name (by simp [route_at, hr, hq1]) hy
      exact ⟨z, hz, connected_trans (connected_symm hc) hcz⟩
    · intro q x hq hx
      simp only [Option.some.injEq] at hq
      subst hq
      have hx2 : x = rnode.name := by
        simpa [name_at, List.getElem?_append_left hlt, hr] using hx.symm
      subst hx2
      exact ⟨name, by simp [name_at], hc⟩

theorem edges_merge_routes {pairs : List (List Char × List Char)} (fuel : Nat)
    (st st1 : State) (r1 r2 : Nat) (y1 y2 : List Char)
    (h : EdgesConnected pairs st.heap)
    (hy1 : name_at st.heap r1 = some y1) (hy2 : name_at st.heap r2 = some y2)
    (hc : Connected pairs y1 y2)
    (hm : merge_routes fuel st (some r1) (some r2) = some st1) :
    EdgesConnected pairs st1.heap := by
  simp only [merge_routes] at hm
  cases hs : merge_seek st.heap r2 fuel st.RoutesList with
  | none => simp [hs] at hm
  | some q0 =>
    simp only [hs] at hm
    cases h2 : st.heap[r2]? with
    | none => simp [h2] at hm
    | some n2 =>
      simp only [h2] at hm
      cases hl : merge_last (setNext (setNext st.heap q0 n2.next) r2 none) fuel r2 with
      | none => simp [hl] at hm
      | some last =>
        simp only [hl] at hm
        cases h1 : (setNext (setNext st.heap q0 n2.next) r2 none)[r1]? with
        | none => simp [h1] at hm
        | some n1 =>
          simp only [h1, Option.some.injEq] at hm
          subst hm
          have hE2 : EdgesConnected pairs (setNext (setNext st.heap q0 n2.next) r2 none) :=
            edges_setNext (edges_setNext h _ _) _ _
          have hn : ∀ i, name_at (setNext (setNext st.heap q0 n2.next) r2 none) i =
              name_at st.heap i := fun i => by rw [name_at_setNext, name_at_setNext]
          obtain ⟨yl, hyl, hcl⟩ := merge_last_connected hE2 fuel r2 last y2 hl
            (by rw [hn]; exact hy2)
          show EdgesConnected pairs (setRoute (setRoute _ last n1.route) r1 (some r2))
          apply edges_setRoute
          · apply edges_setRoute hE2
            intro q x hq hx
            have hx2 : x = yl := by rw [hyl] at hx; exact (Option.some.inj hx).symm
            subst hx2
            obtain ⟨z, hz, hcz⟩ := hE2 r1 q y1 (by simp [route_at, h1, hq])
              (by rw [hn]; exact hy1)
            exact ⟨z, hz, connected_trans (connected_symm hcl)
              (connected_trans (connected_symm hc) hcz)⟩
          · intro q x hq hx
            simp only [Option.some.injEq] at hq
            subst hq
            rw [name_at_setRoute, hn] at hx ⊢
            have hx2 : x = y1 := by rw [hy1] at hx; exact (Option.some.inj hx).symm
            subst hx2
            exact ⟨y2, hy2, hc⟩

theorem edges_new_group {pairs : List (List Char × List Char)} (heap : List Node)
    (name_1 name_2 : List Char) (next : Ptr)
    (h : EdgesConnected pairs heap) (hc : Connected pairs name_1 name_2) :
    EdgesConnected pairs
      (heap ++ [⟨name_1, some (heap.length + 1), next⟩, ⟨name_2, none, none⟩]) := by
  have e := modify_append_length (fun nd : Node => { nd with route := some (heap.length + 1) })
    ⟨name_1, none, next⟩ [⟨name_2, none, none⟩] heap
  have e2 : heap ++ [(⟨name_1, some (heap.length + 1), next⟩ : Node), ⟨name_2, none, none⟩] =
      setRoute ((heap ++ [⟨name_1, none, next⟩]) ++ [⟨name_2, none, none⟩]) heap.length
        (some (heap.length + 1)) := by
    rw [setRoute, List.append_assoc, List.singleton_append, e]
  rw [e2]
  apply edges_setRoute
  · apply edges_append
    · apply edges_append h
      intro q hq
      exact absurd hq (by simp)
    · intro q hq
      exact absurd hq (by simp)
  · intro q x hq hx
    simp only [Option.some.injEq] at hq
    subst hq
    have hx1 : x = name_1 := by
      have : (heap ++ [(⟨name_1, none, next⟩ : Node)] ++ [⟨name_2, none, none⟩])[heap.length]? =
          some ⟨name_1, none, next⟩ := by
        rw [List.append_assoc, List.getElem?_append_right (Nat.le_refl _)]
        simp
      rw [name_at, this] at hx
      exact (Option.some.inj hx).symm
    subst hx1
    refine ⟨name_2, ?_, hc⟩
    have : (heap ++ [(⟨x, none, next⟩ : Node)] ++ [⟨name_2, none, none⟩])[heap.length + 1]? =
        some ⟨name_2, none, none⟩ := by
      rw [List.append_assoc, List.getElem?_append_right (by omega)]
      simp
    rw [name_at, this]
    rfl

/-- One register call keeps every sibling link between connected names. -/
theorem edges_add_pair {pairs : List (List Char × List Char)} (fuel : Nat) (st st1 : State)
    (a b : List Char) (rc : RETURN_CODE) (h : EdgesConnected pairs st.heap)
    (hadd : add_pair_to_routes_list fuel st a b = some (rc, st1)) :
    EdgesConnected (pairs ++ [(a, b)]) st1.heap := by
  have hsub : ∀ p ∈ pairs, p ∈ pairs ++ [(a, b)] := fun p hp => by simp [hp]
  have h1 := edges_mono hsub h
  have hab : Connected (pairs ++ [(a, b)]) a b := connected_of_mem (by simp)
  have hadd0 := hadd
  simp only [add_pair_to_routes_list] at hadd
  cases hf1 : find_node_in_routes_list fuel st a with
  | none => simp [hf1] at hadd
  | some f1 =>
    obtain ⟨nd1, rt1⟩ := f1
    simp only [hf1] at hadd
    cases hf2 : find_node_in_routes_list fuel st b with
    | none => simp [hf2] at hadd
    | some f2 =>
      obtain ⟨nd2, rt2⟩ := f2
      simp only [hf2] at hadd
      cases nd1 with
      | none =>
        cases nd2 with
        | none =>
          rw [add_pair_new_group fuel st a b rt1 rt2 hf1 hf2] at hadd0
          simp only [Option.some.injEq, Prod.mk.injEq] at hadd0
          obtain ⟨_, rfl⟩ := hadd0
          exact edges_new_group st.heap a b st.RoutesList h1 hab
        | some n2 =>
          obtain ⟨r, y, hrp, hy, hc⟩ := found_connected fuel st h1 b n2 rt2 hf2
          simp only [and_false, if_false, if_true] at hadd
          cases hn : add_node_to_route st a rt2 with
          | none => simp [hn] at hadd
          | some res =>
            obtain ⟨rc1, st2⟩ := res
            simp only [hn, Option.some.injEq, Prod.mk.injEq] at hadd
            obtain ⟨_, rfl⟩ := hadd
            exact edges_add_node_to_route st _ a rt2 rc1 r y h1 hrp hy
              (connected_trans hc (connected_symm hab)) hn
      | some n1 =>
        obtain ⟨r1, y1, hrp1, hy1, hc1⟩ := found_connected fuel st h1 a n1 rt1 hf1
        cases nd2 with
        | none =>
          simp only [false_and, if_false, if_true] at hadd
          have hne : ¬ ((some n1 : Ptr) = none) := by simp
          simp only [hne, if_false] at hadd
          cases hn : add_node_to_route st b rt1 with
          | none => simp [hn] at hadd
          | some res =>
            obtain ⟨rc1, st2⟩ := res
            simp only [hn, Option.some.injEq, Prod.mk.injEq] at hadd
            obtain ⟨_, rfl⟩ := hadd
            exact edges_add_node_to_route st _ b rt1 rc1 r1 y1 h1 hrp1 hy1
              (connected_trans hc1 hab) hn
        | some n2 =>
          obtain ⟨r2, y2, hrp2, hy2, hc2⟩ := found_connected fuel st h1 b n2 rt2 hf2
          have hne1 : ¬ ((some n1 : Ptr) = none) := by simp
          have hne2 : ¬ ((some n2 : Ptr) = none) := by simp
          simp only [hne1, hne2, false_and, if_false] at hadd
          by_cases hrt : rt1 ≠ rt2
          · simp only [hrt, not_false_eq_true, if_true, ne_eq] at hadd
            cases hm : merge_routes fuel st rt1 rt2 with
            | none => simp [hm] at hadd
            | some st2 =>
              simp only [hm, Option.some.injEq, Prod.mk.injEq] at hadd
              obtain ⟨_, rfl⟩ := hadd
              subst hrp1 hrp2
              exact edges_merge_routes fuel st _ r1 r2 y1 y2 h1 hy1 hy2
                (connected_trans hc1 (connected_trans hab (connected_symm hc2))) hm
          · simp only [hrt, if_false, Option.some.injEq, Prod.mk.injEq] at hadd
            obtain ⟨_, rfl⟩ := hadd
            exact h1

theorem edges_register_all (fuel : Nat) :
    ∀ (rest done : List (List Char × List Char)) (st st1 : State),
      EdgesConnected done st.heap → register_all fuel st rest = some st1 →
      EdgesConnected (done ++ rest) st1.heap := by
  intro rest
  induction rest with
  | nil =>
    intro done st st1 h hr
    simp only [register_all, Option.some.injEq] at hr
    subst hr
    simpa using h
  | cons pr rest ih =>
    intro done st st1 h hr
    obtain ⟨a, b⟩ := pr
    simp only [register_all] at hr
    cases ha : add_pair_to_routes_list fuel st a b with
    | none => simp [ha] at hr
    | some res =>
      obtain ⟨rc, st2⟩ := res
      simp only [ha] at hr
      have := ih (done ++ [(a, b)]) st2 st1 (edges_add_pair fuel st st2 a b rc h ha) hr
      simpa using this

theorem edges_empty : EdgesConnected [] State.empty.heap := by
  intro p q x hr _
  simp [route_at, State.empty] at hr

theorem route_one_connected {pairs : List (List Char × List Char)} (fuel1 : Nat)
    (st : State) (x y : List Char) (hE : EdgesConnected pairs st.heap)
    (hq : is_route fuel1 st x y = some (RC_NO_ERROR, some 1)) :
    Connected pairs x y := by
  rw [is_route_contract] at hq
  cases h1 : find_node_in_routes_list fuel1 st x with
  | none => simp [h1] at hq
  | some f1 =>
    cases h2 : find_node_in_routes_list fuel1 st y with
    | none => simp [h1, h2] at hq
    | some f2 =>
      obtain ⟨nd1, rt1⟩ := f1
      obtain ⟨nd2, rt2⟩ := f2
      simp only [h1, h2, Option.some_bind, Option.map_some', Option.some.injEq] at hq
      cases nd1 with
      | none => simp at hq
      | some n1 =>
        cases nd2 with
        | none => simp at hq
        | some n2 =>
          obtain ⟨r1, y1, hrp1, hy1, hc1⟩ := found_connected fuel1 st hE x n1 rt1 h1
          obtain ⟨r2, y2, hrp2, hy2, hc2⟩ := found_connected fuel1 st hE y n2 rt2 h2
          by_cases hrt : rt1 = rt2
          · subst hrp1
            rw [← hrt] at hrp2
            simp only [Option.some.injEq] at hrp2
            subst hrp2
            rw [hy1] at hy2
            simp only [Option.some.injEq] at hy2
            subst hy2
            exact connected_trans (connected_symm hc1) hc2
          · simp [hrt] at hq

theorem edges_of_register_all (fuel : Nat) (pairs : List (List Char × List Char))
    (st : State) (hreg : register_all fuel State.empty pairs = some st) :
    EdgesConnected pairs st.heap := by
  simpa using edges_register_all fuel pairs [] State.empty st edges_empty hreg

/-! ## Every allocated node carries a registered name -/

theorem name_at_append_cases (heap ext : List Node) (i : Nat) (x : List Char)
    (h : name_at (heap ++ ext) i = some x) :
    name_at heap i = some x ∨ ∃ nd ∈ ext, nd.name = x := by
  by_cases hi : i < heap.length
  · left
    simpa [name_at, List.getElem?_append_left hi] using h
  · right
    simp only [name_at, List.getElem?_append_right (Nat.le_of_not_lt hi),
      Option.map_eq_some'] at h
    obtain ⟨nd, hnd, hx⟩ := h
    exact ⟨nd, List.getElem?_mem hnd, hx⟩

theorem names_add_node_to_route (st st1 : State) (name : List Char) (rp : Ptr)
    (rc : RETURN_CODE) (hadd : add_node_to_route st name rp = some (rc, st1)) :
    ∀ i x, name_at st1.heap i = some x → name_at st.heap i = some x ∨ x = name := by
  intro i x hx
  cases rp with
  | none => simp [add_node_to_route] at hadd
  | some r =>
    simp only [add_node_to_route] at hadd
    cases hr : st.heap[r]? with
    | none => simp [hr] at hadd
    | some rnode =>
      simp only [hr, Option.some.injEq, Prod.mk.injEq] at hadd
      obtain ⟨_, rfl⟩ := hadd
      simp only [name_at_setRoute] at hx
      rcases name_at_append_cases _ _ i x hx with h1 | ⟨nd, hnd, hn⟩
      · exact Or.inl h1
      · simp only [List.mem_singleton] at hnd
        subst hnd
        exact Or.inr hn.symm

theorem names_merge_routes (fuel : Nat) (st st1 : State) (rp1 rp2 : Ptr)
    (hm : merge_routes fuel st rp1 rp2 = some st1) :
    ∀ i, name_at st1.heap i = name_at st.heap i := by
  intro i
  cases rp1 with
  | none => simp [merge_routes] at hm
  | some r1 =>
    cases rp2 with
    | none => simp [merge_routes] at hm
    | some r2 =>
      simp only [merge_routes] at hm
      cases hs : merge_seek st.heap r2 fuel st.RoutesList with
      | none => simp [hs] at hm
      | some q0 =>
        simp only [hs] at hm
        cases h2 : st.heap[r2]? with
        | none => simp [h2] at hm
        | some n2 =>
          simp only [h2] at hm
          cases hl : merge_last (setNext (setNext st.heap q0 n2.next) r2 none) fuel r2 with
          | none => simp [hl] at hm
          | some last =>
            simp only [hl] at hm
            cases h1 : (setNext (setNext st.heap q0 n2.next) r2 none)[r1]? with
            | none => simp [h1] at hm
            | some n1 =>
              simp only [h1, Option.some.injEq] at hm
              subst hm
              simp only [name_at_setRoute, name_at_setNext]

/-- One register call allocates nodes named after its own two names only. -/
theorem names_add_pair {pairs : List (List Char × List Char)} (fuel : Nat) (st st1 : State)
    (a b : List Char) (rc : RETURN_CODE) (h : NamesRegistered pairs st.heap)
    (hadd : add_pair_to_routes_list fuel st a b = some (rc, st1)) :
    NamesRegistered (pairs ++ [(a, b)]) st1.heap := by
  have hold : ∀ i x, name_at st.heap i = some x →
      ∃ p ∈ pairs ++ [(a, b)], p.1 = x ∨ p.2 = x := by
    intro i x hx
    obtain ⟨p, hp, hpx⟩ := h i x hx
    exact ⟨p, by simp [hp], hpx⟩
  have ha : ∃ p ∈ pairs ++ [(a, b)], p.1 = a ∨ p.2 = a := ⟨(a, b), by simp, Or.inl rfl⟩
  have hb : ∃ p ∈ pairs ++ [(a, b)], p.1 = b ∨ p.2 = b := ⟨(a, b), by simp, Or.inr rfl⟩
  have hadd0 := hadd
  simp only [add_pair_to_routes_list] at hadd
  cases hf1 : find_node_in_routes_list fuel st a with
  | none => simp [hf1] at hadd
  | some f1 =>
    obtain ⟨nd1, rt1⟩ := f1
    simp only [hf1] at hadd
    cases hf2 : find_node_in_routes_list fuel st b with
    | none => simp [hf2] at hadd
    | some f2 =>
      obtain ⟨nd2, rt2⟩ := f2
      simp only [hf2] at hadd
      cases nd1 with
      | none =>
        cases nd2 with
        | none =>
          rw [add_pair_new_group fuel st a b rt1 rt2 hf1 hf2] at hadd0
          simp only [Option.some.injEq, Prod.mk.injEq] at hadd0
          obtain ⟨_, rfl⟩ := hadd0
          intro i x hx
          rcases name_at_append_cases _ _ i x hx with h1 | ⟨nd, hnd, hn⟩
          · exact hold i x h1
          · simp only [List.mem_cons, List.mem_singleton, List.mem_nil_iff, or_false] at hnd
            rcases hnd with rfl | rfl
            · rw [← hn]; exact ha
            · rw [← hn]; exact hb
        | some n2 =>
          simp only [and_false, if_false, if_true] at hadd
          cases hn : add_node_to_route st a rt2 with
          | none => simp [hn] at hadd
          | some res =>
            obtain ⟨rc1, st2⟩ := res
            simp only [hn, Option.some.injEq, Prod.mk.injEq] at hadd
            obtain ⟨_, rfl⟩ := hadd
            intro i x hx
            rcases names_add_node_to_route st _ a rt2 rc1 hn i x hx with h1 | h1
            · exact hold i x h1
            · rw [h1]; exact ha
      | some n1 =>
        have hne1 : ¬ ((some n1 : Ptr) = none) := by simp
        cases nd2 with
        | none =>
          simp only [false_and, if_false, if_true, hne1] at hadd
          cases hn : add_node_to_route st b rt1 with
          | none => simp [hn] at hadd
          | some res =>
            obtain ⟨rc1, st2⟩ := res
            simp only [hn, Option.some.injEq, Prod.mk.injEq] at hadd
            obtain ⟨_, rfl⟩ := hadd
            intro i x hx
            rcases names_add_node_to_route st _ b rt1 rc1 hn i x hx with h1 | h1
            · exact hold i x h1
            · rw [h1]; exact hb
        | some n2 =>
          have hne2 : ¬ ((some n2 : Ptr) = none) := by simp
          simp only [hne1, hne2, false_and, if_false] at hadd
          by_cases hrt : rt1 ≠ rt2
          · simp only [hrt, not_false_eq_true, if_true, ne_eq] at hadd
            cases hm : merge_routes fuel st rt1 rt2 with
            | none => simp [hm] at hadd
            | some st2 =>
              simp only [hm, Option.some.injEq, Prod.mk.injEq] at hadd
              obtain ⟨_, rfl⟩ := hadd
              intro i x hx
              rw [names_merge_routes fuel st _ rt1 rt2 hm i] at hx
              exact hold i x hx
          · simp only [hrt, if_false, Option.some.injEq, Prod.mk.injEq] at hadd
            obtain ⟨_, rfl⟩ := hadd
            exact hold

theorem names_register_all (fuel : Nat) :
    ∀ (rest done : List (List Char × List Char)) (st st1 : State),
      NamesRegistered done st.heap → register_all fuel st rest = some st1 →
      NamesRegistered (done ++ rest) st1.heap := by
  intro rest
  induction rest with
  | nil =>
    intro done st st1 h hr
    simp only [register_all, Option.some.injEq] at hr
    subst hr
    simpa using h
  | cons pr rest ih =>
    intro done st st1 h hr
    obtain ⟨a, b⟩ := pr
    simp only [register_all] at hr
    cases ha : add_pair_to_routes_list fuel st a b with
    | none => simp [ha] at hr
    | some res =>
      obtain ⟨rc, st2⟩ := res
      simp only [ha] at hr
      have := ih (done ++ [(a, b)]) st2 st1 (names_add_pair fuel st st2 a b rc h ha) hr
      simpa using this

theorem names_of_register_all (fuel : Nat) (pairs : List (List Char × List Char))
    (st : State) (hreg : register_all fuel State.empty pairs = some st) :
    NamesRegistered pairs st.heap := by
  have h0 : NamesRegistered [] State.empty.heap := by
    intro i x hx
    simp [name_at, State.empty] at hx
  simpa using names_register_all fuel pairs [] State.empty st h0 hreg

theorem members_names (heap : List Node) :
    ∀ (fuel : Nat) (p : Ptr) (l : List (Nat × List Char)),
      members heap fuel p = some l → ∀ m ∈ l, name_at heap m.1 = some m.2 := by
  intro fuel
  induction fuel with
  | zero =>
    intro p l h m hm
    cases p with
    | none => simp [members] at h; subst h; simp at hm
    | some q => simp [members] at h
  | succ n ih =>
    intro p l h m hm
    cases p with
    | none => simp [members] at h; subst h; simp at hm
    | some q =>
      simp only [members] at h
      cases hq : heap[q]? with
      | none => simp [hq] at h
      | some nd =>
        simp only [hq, Option.map_eq_some'] at h
        obtain ⟨tl, htl, rfl⟩ := h
        rcases List.mem_cons.mp hm with rfl | hm1
        · simp [name_at, hq]
        · exact ih _ _ htl m hm1

/-- A name the lookup finds is the name of an allocated node, hence a name that
occurs in a registered pair. -/
theorem found_registered {pairs : List (List Char × List Char)} (fuel : Nat) (st : State)
    (h : NamesRegistered pairs st.heap) (name : List Char) (n : Nat) (rp : Ptr)
    (hf : find_node_in_routes_list fuel st name = some (some n, rp)) :
    ∃ p ∈ pairs, p.1 = name ∨ p.2 = name := by
  obtain ⟨gs, r, hg, _, hv⟩ := found_is_visit fuel st name n rp hf
  obtain ⟨g, hgm, hm, _⟩ := mem_visits.mp hv
  obtain ⟨fuel1, hmem⟩ := groups_mem st.heap fuel _ gs hg g hgm
  exact h n name (members_names st.heap fuel1 _ g.2 hmem (n, name) hm)

theorem route_one_found (fuel1 : Nat) (st : State) (x y : List Char)
    (hq : is_route fuel1 st x y = some (RC_NO_ERROR, some 1)) :
    ∃ n1 n2 rt1 rt2, find_node_in_routes_list fuel1 st x = some (some n1, rt1) ∧
      find_node_in_routes_list fuel1 st y = some (some n2, rt2) := by
  rw [is_route_contract] at hq
  cases h1 : find_node_in_routes_list fuel1 st x with
  | none => simp [h1] at hq
  | some f1 =>
    cases h2 : find_node_in_routes_list fuel1 st y with
    | none => simp [h1, h2] at hq
    | some f2 =>
      obtain ⟨nd1, rt1⟩ := f1
      obtain ⟨nd2, rt2⟩ := f2
      simp only [h1, h2, Option.some_bind, Option.map_some', Option.some.injEq] at hq
      cases nd1 with
      | none => simp at hq
      | some n1 =>
        cases nd2 with
        | none => simp at hq
        | some n2 => exact ⟨n1, n2, rt1, rt2, rfl, rfl⟩

/-- C20. After any sequence of register calls on the empty partition, merges
included, whenever `is_route(x, y)` returns RC_NO_ERROR with result 1, both x and
y occur in a registered pair and they are connected by a chain of registered
relations; so for x = y the answer 1 is given for a registered name only. -/
theorem no_false_routes (fuel fuel1 : Nat) (pairs : List (List Char × List Char))
    (st : State) (x y : List Char)
    (hreg : register_all fuel State.empty pairs = some st)
    (hq : is_route fuel1 st x y = some (RC_NO_ERROR, some 1)) :
    (∃ p ∈ pairs, p.1 = x ∨ p.2 = x) ∧ (∃ p ∈ pairs, p.1 = y ∨ p.2 = y) ∧
      Connected pairs x y := by
  obtain ⟨n1, n2, rt1, rt2, h1, h2⟩ := route_one_found fuel1 st x y hq
  have hN := names_of_register_all fuel pairs st hreg
  exact ⟨found_registered fuel1 st hN x n1 rt1 h1, found_registered fuel1 st hN y n2 rt2 h2,
    route_one_connected fuel1 st x y (edges_of_register_all fuel pairs st hreg) hq⟩

theorem no_false_routes_witness :
    register_all 5 State.empty
      [("C".toList, "D".toList), ("A".toList, "B".toList), ("B".toList, "C".toList)] =
      some ⟨[⟨"C".toList, some 1, none⟩, ⟨"D".toList, some 3, none⟩,
             ⟨"A".toList, some 0, some 0⟩, ⟨"B".toList, none, none⟩], some 2⟩ ∧
    is_route 5 ⟨[⟨"C".toList, some 1, none⟩, ⟨"D".toList, some 3, none⟩,
             ⟨"A".toList, some 0, some 0⟩, ⟨"B".toList, none, none⟩], some 2⟩
      "B".toList "D".toList = some (RC_NO_ERROR, some 1) ∧
    (∃ p ∈ [("C".toList, "D".toList), ("A".toList, "B".toList), ("B".toList, "C".toList)],
      p.1 = "B".toList ∨ p.2 = "B".toList) ∧
    (∃ p ∈ [("C".toList, "D".toList), ("A".toList, "B".toList), ("B".toList, "C".toList)],
      p.1 = "D".toList ∨ p.2 = "D".toList) ∧
    Connected [("C".toList, "D".toList), ("A".toList, "B".toList), ("B".toList, "C".toList)]
      "B".toList "D".toList :=
  ⟨by decide, by decide,
    no_false_routes 5 5 _ ⟨[⟨"C".toList, some 1, none⟩, ⟨"D".toList, some 3, none⟩,
      ⟨"A".toList, some 0, some 0⟩, ⟨"B".toList, none, none⟩], some 2⟩ _ _
      (by decide) (by decide)⟩

/-! ## The groups after a register call that does not merge -/

theorem members_succ (heap : List Node) (n r : Nat) (l : List (Nat × List Char))
    (h : members heap (n + 1) (some r) = some l) :
    ∃ nd tl, heap[r]? = some nd ∧ l = (r, nd.name) :: tl ∧
      members heap n nd.route = some tl := by
  simp only [members] at h
  cases hr : heap[r]? with
  | none => simp [hr] at h
  | some nd =>
    simp only [hr, Option.map_eq_some'] at h
    obtain ⟨tl, htl, rfl⟩ := h
    exact ⟨nd, tl, rfl, rfl, htl⟩

theorem members_lt (heap : List Node) :
    ∀ (fuel : Nat) (p : Ptr) (l : List (Nat × List Char)),
      members heap fuel p = some l → ∀ m ∈ l, m.1 < heap.length := by
  intro fuel
  induction fuel with
  | zero =>
    intro p l h m hm
    cases p with
    | none => simp [members] at h; subst h; simp at hm
    | some q => simp [members] at h
  | succ n ih =>
    intro p l h m hm
    cases p with
    | none => simp [members] at h; subst h; simp at hm
    | some q =>
      obtain ⟨nd, tl, hq, rfl, htl⟩ := members_succ heap n q l h
      rcases List.mem_cons.mp hm with rfl | hm1
      · exact name_at_lt heap q nd.name (by simp [name_at, hq])
      · exact ih _ _ htl m hm1

theorem members_frame (heap heap1 : List Node) :
    ∀ (fuel : Nat) (p : Ptr) (l : List (Nat × List Char)),
      members heap fuel p = some l → (∀ m ∈ l, heap1[m.1]? = heap[m.1]?) →
      members heap1 fuel p = some l := by
  intro fuel
  induction fuel with
  | zero =>
    intro p l h _
    cases p with
    | none => simpa [members] using h
    | some q => simp [members] at h
  | succ n ih =>
    intro p l h hsame
    cases p with
    | none => simpa [members] using h
    | some q =>
      obtain ⟨nd, tl, hq, rfl, htl⟩ := members_succ heap n q l h
      have hq1 : heap1[q]? = some nd := by rw [hsame (q, nd.name) (by simp), hq]
      simp only [members, hq1, ih _ _ htl (fun m hm => hsame m (by simp [hm])),
        Option.map_some']

theorem groups_succ (heap : List Node) (n r : Nat)
    (gs : List (Nat × List (Nat × List Char)))
    (h : groups heap (n + 1) (some r) = some gs) :
    ∃ nd g gs1, heap[r]? = some nd ∧ members heap n (some r) = some g ∧
      groups heap n nd.next = some gs1 ∧ gs = (r, g) :: gs1 := by
  simp only [groups] at h
  cases hr : heap[r]? with
  | none => simp [hr] at h
  | some nd =>
    simp only [hr] at h
    cases hm : members heap n (some r) with
    | none => simp [hm] at h
    | some g =>
      simp only [hm, Option.map_eq_some'] at h
      obtain ⟨gs1, h1, rfl⟩ := h
      exact ⟨nd, g, gs1, rfl, rfl, h1, rfl⟩

theorem groups_unique (heap : List Node) (f1 f2 : Nat) (p : Ptr)
    (g1 g2 : List (Nat × List (Nat × List Char)))
    (h1 : groups heap f1 p = some g1) (h2 : groups heap f2 p = some g2) : g1 = g2 := by
  have e1 := groups_mono heap f1 (max f1 f2) p g1 (Nat.le_max_left _ _) h1
  have e2 := groups_mono heap f2 (max f1 f2) p g2 (Nat.le_max_right _ _) h2
  rw [e1] at e2
  exact Option.some.inj e2

/-- The heap after `add_node_to_route(name, r)`, read at the addresses that
matter for the traversal. -/
theorem add_node_heap (heap : List Node) (r : Nat) (rnode : Node) (name : List Char)
    (hr : heap[r]? = some rnode) :
    (∀ i, i ≠ r → i < heap.length →
      (setRoute (heap ++ [⟨name, rnode.route, none⟩]) r (some heap.length))[i]? = heap[i]?) ∧
    (setRoute (heap ++ [⟨name, rnode.route, none⟩]) r (some heap.length))[r]? =
      some { rnode with route := some heap.length } ∧
    (setRoute (heap ++ [⟨name, rnode.route, none⟩]) r (some heap.length))[heap.length]? =
      some ⟨name, rnode.route, none⟩ := by
  have hlt : r < heap.length := name_at_lt heap r rnode.name (by simp [name_at, hr])
  refine ⟨?_, ?_, ?_⟩
  · intro i hi hil
    rw [setRoute, List.getElem?_modify_ne _ _ (Ne.symm hi), List.getElem?_append_left hil]
  · rw [setRoute, List.getElem?_modify_eq, List.getElem?_append_left hlt, hr]
    rfl
  · rw [setRoute, List.getElem?_modify_ne _ _ (by omega), List.getElem?_concat_length]

theorem members_after_add (heap : List Node) (r : Nat) (rnode : Node) (name : List Char)
    (hr : heap[r]? = some rnode) (n : Nat) (g : List (Nat × List Char))
    (hm : members heap n (some r) = some g) (htail : ∀ m ∈ g.tail, m.1 ≠ r) :
    members (setRoute (heap ++ [⟨name, rnode.route, none⟩]) r (some heap.length)) (n + 1)
      (some r) = some (g.take 1 ++ (heap.length, name) :: g.drop 1) := by
  obtain ⟨f1, f2, f3⟩ := add_node_heap heap r rnode name hr
  cases n with
  | zero => simp [members] at hm
  | succ k =>
    obtain ⟨nd, tl, hq, rfl, htl⟩ := members_succ heap k r g hm
    rw [hr] at hq
    simp only [Option.some.injEq] at hq
    subst hq
    have hfr : members (setRoute (heap ++ [⟨name, rnode.route, none⟩]) r (some heap.length)) k
        rnode.route = some tl := by
      apply members_frame heap _ k _ _ htl
      intro m hmem
      exact f1 m.1 (htail m (by simpa using hmem)) (members_lt heap k _ tl htl m hmem)
    simp only [members, f2, f3, hfr, Option.map_some', List.take_succ_cons, List.take_zero,
      List.drop_succ_cons, List.drop_zero, List.singleton_append]

theorem groups_after_add (heap : List Node) (r : Nat) (rnode : Node) (name : List Char)
    (hr : heap[r]? = some rnode) :
    ∀ (fuel : Nat) (p : Ptr) (gs : List (Nat × List (Nat × List Char))),
      groups heap fuel p = some gs → (∀ g ∈ gs, ∀ m ∈ g.2.tail, m.1 ≠ r) →
      groups (setRoute (heap ++ [⟨name, rnode.route, none⟩]) r (some heap.length)) (fuel + 1) p
        = some (gs.map (insert_member r (heap.length, name))) := by
  obtain ⟨f1, f2, f3⟩ := add_node_heap heap r rnode name hr
  intro fuel
  induction fuel with
  | zero =>
    intro p gs h _
    cases p with
    | none => simp [groups] at h ⊢; subst h; rfl
    | some q => simp [groups] at h
  | succ n ih =>
    intro p gs h htail
    cases p with
    | none => simp [groups] at h ⊢; subst h; rfl
    | some e =>
      obtain ⟨nd, g, gs1, he, hm, hg1, rfl⟩ := groups_succ heap n e gs h
      have ih1 := ih nd.next gs1 hg1 (fun g0 h0 => htail g0 (by simp [h0]))
      have hgt : ∀ m ∈ g.tail, m.1 ≠ r := htail (e, g) (by simp)
      by_cases her : e = r
      · subst her
        rw [hr] at he
        simp only [Option.some.injEq] at he
        subst he
        have hmem := members_after_add heap e rnode name hr n g hm hgt
        simp only [groups, f2, hmem, ih1, Option.map_some', List.map_cons, insert_member,
          if_true]
      · have helt : e < heap.length := name_at_lt heap e nd.name (by simp [name_at, he])
        have he1 := f1 e her helt
        rw [he] at he1
        have hmem : members (setRoute (heap ++ [⟨name, rnode.route, none⟩]) r
            (some heap.length)) (n + 1) (some e) = some g := by
          apply members_mono _ n (n + 1) _ _ (by omega)
          apply members_frame heap _ n _ _ hm
          intro m hmm
          apply f1 m.1 _ (members_lt heap n _ g hm m hmm)
          cases n with
          | zero => simp [members] at hm
          | succ k =>
            obtain ⟨nd1, tl, _, rfl, _⟩ := members_succ heap k e g hm
            rcases List.mem_cons.mp hmm with rfl | hm1
            · exact her
            · exact hgt m (by simpa using hm1)
        simp only [groups, he1, hmem, ih1, Option.map_some', List.map_cons, insert_member,
          her, if_false]

theorem groups_heads (heap : List Node) :
    ∀ (fuel : Nat) (p : Ptr) (gs : List (Nat × List (Nat × List Char))),
      groups heap fuel p = some gs → ∀ g ∈ gs, ∃ x tl, g.2 = (g.1, x) :: tl := by
  intro fuel p gs h g hg
  obtain ⟨f1, hm⟩ := groups_mem heap fuel p gs h g hg
  cases f1 with
  | zero => simp [members] at hm
  | succ n =>
    obtain ⟨nd, tl, _, e, _⟩ := members_succ heap n g.1 g.2 hm
    exact ⟨nd.name, tl, e⟩

theorem visits_lt (heap : List Node) (fuel : Nat) (p : Ptr)
    (gs : List (Nat × List (Nat × List Char))) (h : groups heap fuel p = some gs) :
    ∀ v ∈ visits gs, v.1 < heap.length ∧ v.2.2 < heap.length := by
  intro v hv
  obtain ⟨g, hg, hm, he⟩ := mem_visits.mp hv
  obtain ⟨f1, hmem⟩ := groups_mem heap fuel p gs h g hg
  obtain ⟨x, tl, hx⟩ := groups_heads heap fuel p gs h g hg
  constructor
  · exact members_lt heap f1 _ g.2 hmem (v.1, v.2.1) hm
  · rw [he]
    exact members_lt heap f1 _ g.2 hmem (g.1, x) (by rw [hx]; simp)

theorem entry_is_visit (heap : List Node) (fuel : Nat) (p : Ptr)
    (gs : List (Nat × List (Nat × List Char))) (h : groups heap fuel p = some gs) :
    ∀ g ∈ gs, ∃ x, (g.1, x, g.1) ∈ visits gs := by
  intro g hg
  obtain ⟨x, tl, hx⟩ := groups_heads heap fuel p gs h g hg
  exact ⟨x, mem_visits.mpr ⟨g, hg, by rw [hx]; simp, rfl⟩⟩

theorem tail_is_visit {gs : List (Nat × List (Nat × List Char))}
    {g : Nat × List (Nat × List Char)} (hg : g ∈ gs) {m : Nat × List Char}
    (hm : m ∈ g.2.tail) : (m.1, m.2, g.1) ∈ visits gs :=
  mem_visits.mpr ⟨g, hg, List.mem_of_mem_tail hm, rfl⟩

theorem mem_insert_member_members (r : Nat) (m0 m : Nat × List Char)
    (g : Nat × List (Nat × List Char)) :
    m ∈ (insert_member r m0 g).2 ↔ m ∈ g.2 ∨ (g.1 = r ∧ m = m0) := by
  unfold insert_member
  by_cases h : g.1 = r
  · simp only [h, if_true, List.mem_append, List.mem_cons, true_and]
    constructor
    · rintro (h1 | h1 | h1)
      · exact Or.inl (List.mem_of_mem_take h1)
      · exact Or.inr h1
      · exact Or.inl (List.mem_of_mem_drop h1)
    · rintro (h1 | h1)
      · rw [← List.take_append_drop 1 g.2, List.mem_append] at h1
        rcases h1 with h1 | h1
        · exact Or.inl h1
        · exact Or.inr (Or.inr h1)
      · exact Or.inr (Or.inl h1)
  · simp [h]

theorem insert_member_fst (r : Nat) (m0 : Nat × List Char)
    (g : Nat × List (Nat × List Char)) : (insert_member r m0 g).1 = g.1 := by
  unfold insert_member
  by_cases h : g.1 = r <;> simp [h]

theorem mem_insert_member_tail (r : Nat) (m0 m : Nat × List Char)
    (g : Nat × List (Nat × List Char)) (hm : m ∈ (insert_member r m0 g).2.tail) :
    m ∈ g.2.tail ∨ m = m0 := by
  unfold insert_member at hm
  by_cases h : g.1 = r
  · simp only [h, if_true] at hm
    cases hg : g.2 with
    | nil => rw [hg] at hm; simp at hm
    | cons a tl =>
      rw [hg] at hm
      simp only [List.take_succ_cons, List.take_zero, List.drop_succ_cons, List.drop_zero,
        List.singleton_append, List.tail_cons, List.mem_cons] at hm
      rcases hm with hm | hm
      · exact Or.inr hm
      · exact Or.inl (by simpa using hm)
  · simp only [h, if_false] at hm
    exact Or.inl hm

theorem mem_visits_insert (r : Nat) (m0 : Nat × List Char)
    (gs : List (Nat × List (Nat × List Char))) (hr : ∃ g ∈ gs, g.1 = r)
    (v : Nat × List Char × Nat) :
    v ∈ visits (gs.map (insert_member r m0)) ↔ v ∈ visits gs ∨ v = (m0.1, m0.2, r) := by
  constructor
  · intro hv
    obtain ⟨g1, hg1, hm, he⟩ := mem_visits.mp hv
    obtain ⟨g, hg, rfl⟩ := List.mem_map.mp hg1
    rw [insert_member_fst] at he
    rcases (mem_insert_member_members r m0 _ g).mp hm with h1 | ⟨h1, h2⟩
    · exact Or.inl (mem_visits.mpr ⟨g, hg, h1, he⟩)
    · right
      have e1 : v.1 = m0.1 := by rw [← h2]
      have e2 : v.2.1 = m0.2 := by rw [← h2]
      have e3 : v.2.2 = r := by rw [he, h1]
      rw [← e1, ← e2, ← e3]
  · rintro (hv | rfl)
    · obtain ⟨g, hg, hm, he⟩ := mem_visits.mp hv
      exact mem_visits.mpr ⟨insert_member r m0 g, List.mem_map_of_mem _ hg,
        (mem_insert_member_members r m0 _ g).mpr (Or.inl hm), by rw [insert_member_fst]; exact he⟩
    · obtain ⟨g, hg, hgr⟩ := hr
      exact mem_visits.mpr ⟨insert_member r m0 g, List.mem_map_of_mem _ hg,
        (mem_insert_member_members r m0 _ g).mpr (Or.inr ⟨hgr, rfl⟩),
        by rw [insert_member_fst]; exact hgr.symm⟩

theorem separated_insert {pairs : List (List Char × List Char)}
    {gs : List (Nat × List (Nat × List Char))} (hS : Separated pairs gs)
    (r len : Nat) (name other : List Char) (pr : List Char × List Char)
    (hpr : pr = (name, other) ∨ pr = (other, name))
    (hr : ∃ g ∈ gs, g.1 = r)
    (hfresh : ∀ g ∈ gs, g.1 ≠ len)
    (hnew : ∀ v ∈ visits gs, v.2.1 ≠ name)
    (hother : ∃ w ∈ visits gs, w.2.1 = other ∧ w.2.2 = r) :
    Separated (pairs ++ [pr]) (gs.map (insert_member r (len, name))) := by
  obtain ⟨hT, hSep, hCov⟩ := hS
  have hv := mem_visits_insert r (len, name) gs hr
  refine ⟨?_, ?_, ?_⟩
  · intro g1 hg1 g2 hg2 m hm
    obtain ⟨g, hg, rfl⟩ := List.mem_map.mp hg1
    obtain ⟨g0, hg0, rfl⟩ := List.mem_map.mp hg2
    rw [insert_member_fst]
    rcases mem_insert_member_tail r (len, name) m g0 hm with h1 | h1
    · exact hT g hg g0 hg0 m h1
    · rw [h1]
      exact fun e => hfresh g hg e.symm
  · intro v hv1 w hw1 hname
    rcases (hv v).mp hv1 with h1 | h1 <;> rcases (hv w).mp hw1 with h2 | h2
    · exact hSep v h1 w h2 hname
    · rw [h2] at hname
      exact absurd hname (hnew v h1)
    · rw [h1] at hname
      exact absurd hname.symm (hnew w h2)
    · rw [h1, h2]
  · intro p hp
    rcases List.mem_append.mp hp with hp | hp
    · obtain ⟨v, hv1, w, hw1, h1, h2, h3⟩ := hCov p hp
      exact ⟨v, (hv v).mpr (Or.inl hv1), w, (hv w).mpr (Or.inl hw1), h1, h2, h3⟩
    · simp only [List.mem_singleton] at hp
      obtain ⟨w, hw, hwn, hwr⟩ := hother
      rcases hpr with e | e
      · rw [hp, e]
        exact ⟨(len, name, r), (hv _).mpr (Or.inr rfl), w, (hv w).mpr (Or.inl hw), rfl, hwn,
          hwr.symm⟩
      · rw [hp, e]
        exact ⟨w, (hv w).mpr (Or.inl hw), (len, name, r), (hv _).mpr (Or.inr rfl), hwn, rfl,
          hwr⟩

theorem visits_cons (g : Nat × List (Nat × List Char))
    (gs : List (Nat × List (Nat × List Char))) :
    visits (g :: gs) = g.2.map (fun m => (m.1, m.2, g.1)) ++ visits gs := by
  simp [visits]

theorem separated_new_group {pairs : List (List Char × List Char)}
    {gs : List (Nat × List (Nat × List Char))} (hS : Separated pairs gs)
    (len : Nat) (a b : List Char)
    (hlt : ∀ v ∈ visits gs, v.1 < len ∧ v.2.2 < len)
    (hent : ∀ g ∈ gs, g.1 < len)
    (ha : ∀ v ∈ visits gs, v.2.1 ≠ a) (hb : ∀ v ∈ visits gs, v.2.1 ≠ b) :
    Separated (pairs ++ [(a, b)]) ((len, [(len, a), (len + 1, b)]) :: gs) := by
  obtain ⟨hT, hSep, hCov⟩ := hS
  have hv : ∀ v, v ∈ visits ((len, [(len, a), (len + 1, b)]) :: gs) ↔
      v = (len, a, len) ∨ v = (len + 1, b, len) ∨ v ∈ visits gs := by
    intro v
    rw [visits_cons]
    simp
  refine ⟨?_, ?_, ?_⟩
  · intro g hg g1 hg1 m hm
    have hge : g.1 ≤ len := by
      rcases List.mem_cons.mp hg with rfl | h
      · exact Nat.le_refl _
      · exact Nat.le_of_lt (hent g h)
    rcases List.mem_cons.mp hg1 with rfl | h1
    · simp only [List.tail_cons, List.mem_singleton] at hm
      rw [hm]
      simp only [ne_eq]
      omega
    · have hmlt := (hlt _ (tail_is_visit h1 hm)).1
      rcases List.mem_cons.mp hg with rfl | h
      · simp only at hmlt ⊢
        omega
      · exact hT g h g1 h1 m hm
  · intro v hv1 w hw1 hname
    rcases (hv v).mp hv1 with h1 | h1 | h1 <;> rcases (hv w).mp hw1 with h2 | h2 | h2
    · rw [h1, h2]
    · rw [h1, h2]
    · rw [h1] at hname; exact absurd hname.symm (ha w h2)
    · rw [h1, h2]
    · rw [h1, h2]
    · rw [h1] at hname; exact absurd hname.symm (hb w h2)
    · rw [h2] at hname; exact absurd hname (ha v h1)
    · rw [h2] at hname; exact absurd hname (hb v h1)
    · exact hSep v h1 w h2 hname
  · intro p hp
    rcases List.mem_append.mp hp with hp | hp
    · obtain ⟨v, hv1, w, hw1, h1, h2, h3⟩ := hCov p hp
      exact ⟨v, (hv v).mpr (Or.inr (Or.inr hv1)), w, (hv w).mpr (Or.inr (Or.inr hw1)),
        h1, h2, h3⟩
    · simp only [List.mem_singleton] at hp
      rw [hp]
      exact ⟨(len, a, len), (hv _).mpr (Or.inl rfl), (len + 1, b, len),
        (hv _).mpr (Or.inr (Or.inl rfl)), rfl, rfl, rfl⟩

theorem separated_same_group {pairs : List (List Char × List Char)}
    {gs : List (Nat × List (Nat × List Char))} (hS : Separated pairs gs)
    (a b : List Char)
    (h : ∃ v ∈ visits gs, ∃ w ∈ visits gs, v.2.1 = a ∧ w.2.1 = b ∧ v.2.2 = w.2.2) :
    Separated (pairs ++ [(a, b)]) gs := by
  obtain ⟨hT, hSep, hCov⟩ := hS
  refine ⟨hT, hSep, ?_⟩
  intro p hp
  rcases List.mem_append.mp hp with hp | hp
  · exact hCov p hp
  · simp only [List.mem_singleton] at hp
    rw [hp]
    exact h

theorem separated_nil : Separated [] [] := by
  refine ⟨?_, ?_, ?_⟩
  · intro g hg; simp at hg
  · intro v hv; simp [visits] at hv
  · intro p hp; simp at hp

theorem find_of_groups (fuel F : Nat) (st : State) (name : List Char)
    (gs : List (Nat × List (Nat × List Char)))
    (hg : groups st.heap F st.RoutesList = some gs) (hF : F ≤ fuel) :
    find_node_in_routes_list fuel st name = some (last_match name gs) := by
  rw [find_node_eq_last_match, groups_mono _ F fuel _ _ hF hg]
  rfl

theorem separated_add_node (fuel F : Nat) {pairs : List (List Char × List Char)}
    (st : State) (name other : List Char) (pr : List Char × List Char)
    (hpr : pr = (name, other) ∨ pr = (other, name))
    (gs : List (Nat × List (Nat × List Char))) (n : Nat) (rp rp0 : Ptr)
    (hg : groups st.heap F st.RoutesList = some gs) (hF : F ≤ fuel)
    (hS : Separated pairs gs)
    (hname : find_node_in_routes_list fuel st name = some (none, rp0))
    (hother : find_node_in_routes_list fuel st other = some (some n, rp)) :
    ∃ rc st1 gs1, add_node_to_route st name rp = some (rc, st1) ∧
      groups st1.heap (F + 3) st1.RoutesList = some gs1 ∧
      Separated (pairs ++ [pr]) gs1 := by
  have hgf := groups_mono _ F fuel _ _ hF hg
  obtain ⟨gs0, r, hg0, hrp, hvis⟩ := found_is_visit fuel st other n rp hother
  have e := groups_unique st.heap fuel fuel _ gs0 gs hg0 hgf
  subst e
  subst hrp
  obtain ⟨gr, hgr, _, her⟩ := mem_visits.mp hvis
  simp only at her
  have hrlt : r < st.heap.length := (visits_lt st.heap fuel _ gs0 hgf _ hvis).2
  cases hr : st.heap[r]? with
  | none =>
    rw [List.getElem?_eq_none_iff] at hr
    omega
  | some rnode =>
    have htails : ∀ g ∈ gs0, ∀ m ∈ g.2.tail, m.1 ≠ r := by
      intro g hgm m hm
      rw [her]
      exact hS.1 gr hgr g hgm m hm
    have hnew := groups_after_add st.heap r rnode name hr F st.RoutesList gs0 hg htails
    refine ⟨RC_NO_ERROR,
      ⟨setRoute (st.heap ++ [⟨name, rnode.route, none⟩]) r (some st.heap.length),
        st.RoutesList⟩, _, by simp only [add_node_to_route, hr],
      groups_mono _ (F + 1) (F + 3) _ _ (by omega) hnew, ?_⟩
    apply separated_insert hS r st.heap.length name other pr hpr ⟨gr, hgr, her.symm⟩
    · intro g hgm
      obtain ⟨x, hx⟩ := entry_is_visit st.heap fuel _ gs0 hgf g hgm
      have := (visits_lt st.heap fuel _ gs0 hgf _ hx).1
      simp only at this
      omega
    · exact not_found_iff_no_visit fuel st name gs0 hgf rp0 hname
    · exact ⟨(n, other, r), hvis, rfl, rfl⟩

/-- One register call that does not merge returns and keeps the groups separated. -/
theorem separated_add_pair (fuel F : Nat) {pairs : List (List Char × List Char)}
    (st : State) (a b : List Char)
    (gs : List (Nat × List (Nat × List Char)))
    (hg : groups st.heap F st.RoutesList = some gs) (hF : F ≤ fuel)
    (hS : Separated pairs gs)
    (hfree : takes_merge_branch fuel st a b = false) :
    ∃ rc st1 gs1, add_pair_to_routes_list fuel st a b = some (rc, st1) ∧
      groups st1.heap (F + 3) st1.RoutesList = some gs1 ∧
      Separated (pairs ++ [(a, b)]) gs1 := by
  have hgf := groups_mono _ F fuel _ _ hF hg
  have hf1 := find_of_groups fuel F st a gs hg hF
  have hf2 := find_of_groups fuel F st b gs hg hF
  generalize last_match a gs = f1 at hf1
  generalize last_match b gs = f2 at hf2
  obtain ⟨nd1, rt1⟩ := f1
  obtain ⟨nd2, rt2⟩ := f2
  cases nd1 with
  | none =>
    cases nd2 with
    | none =>
      refine ⟨RC_NO_ERROR, _, _, add_pair_new_group fuel st a b rt1 rt2 hf1 hf2,
        groups_new_group st.heap F st.RoutesList a b gs hg, ?_⟩
      apply separated_new_group hS
      · exact visits_lt st.heap fuel _ gs hgf
      · intro g hgm
        obtain ⟨x, hx⟩ := entry_is_visit st.heap fuel _ gs hgf g hgm
        exact (visits_lt st.heap fuel _ gs hgf _ hx).1
      · exact not_found_iff_no_visit fuel st a gs hgf rt1 hf1
      · exact not_found_iff_no_visit fuel st b gs hgf rt2 hf2
    | some n2 =>
      obtain ⟨rc1, st2, gs2, hn, hg2, hS2⟩ := separated_add_node fuel F st a b (a, b)
        (Or.inl rfl) gs n2 rt2 rt1 hg hF hS hf1 hf2
      refine ⟨RC_NO_ERROR, st2, gs2, ?_, hg2, hS2⟩
      simp [add_pair_to_routes_list, hf1, hf2, hn]
  | some n1 =>
    have hne1 : ¬ ((some n1 : Ptr) = none) := by simp
    cases nd2 with
    | none =>
      obtain ⟨rc1, st2, gs2, hn, hg2, hS2⟩ := separated_add_node fuel F st b a (a, b)
        (Or.inr rfl) gs n1 rt1 rt2 hg hF hS hf2 hf1
      refine ⟨RC_NO_ERROR, st2, gs2, ?_, hg2, hS2⟩
      simp [add_pair_to_routes_list, hf1, hf2, hn]
    | some n2 =>
      have hne2 : ¬ ((some n2 : Ptr) = none) := by simp
      simp only [takes_merge_branch, hf1, hf2, ne_eq, hne1, hne2, not_false_eq_true,
        true_and, decide_eq_false_iff_not, not_not] at hfree
      obtain ⟨g1, r1, hg1, hrp1, hv1⟩ := found_is_visit fuel st a n1 rt1 hf1
      obtain ⟨g2, r2, hg2, hrp2, hv2⟩ := found_is_visit fuel st b n2 rt2 hf2
      have e1 := groups_unique st.heap fuel fuel _ g1 gs hg1 hgf
      have e2 := groups_unique st.heap fuel fuel _ g2 gs hg2 hgf
      subst e1 e2
      have er : r1 = r2 := by
        rw [hrp1, hrp2] at hfree
        exact Option.some.inj hfree
      refine ⟨RC_NO_ERROR, st, _, ?_, groups_mono _ F (F + 3) _ _ (by omega) hg, ?_⟩
      · simp [add_pair_to_routes_list, hf1, hf2, hfree]
      · exact separated_same_group hS a b ⟨_, hv1, _, hv2, rfl, rfl, er⟩

theorem separated_register_all (fuel : Nat) :
    ∀ (rest done : List (List Char × List Char)) (st : State) (F : Nat)
      (gs : List (Nat × List (Nat × List Char))),
      groups st.heap F st.RoutesList = some gs → Separated done gs →
      F + 3 * rest.length ≤ fuel → merge_free fuel st rest = true →
      ∃ st1 gs1, register_all fuel st rest = some st1 ∧
        groups st1.heap fuel st1.RoutesList = some gs1 ∧ Separated (done ++ rest) gs1 := by
  intro rest
  induction rest with
  | nil =>
    intro done st F gs hg hS hF _
    exact ⟨st, gs, rfl, groups_mono _ F fuel _ _ (by simpa using hF) hg, by simpa using hS⟩
  | cons pr rest ih =>
    intro done st F gs hg hS hF hfree
    obtain ⟨a, b⟩ := pr
    simp only [List.length_cons] at hF
    simp only [merge_free, Bool.and_eq_true, Bool.not_eq_true'] at hfree
    obtain ⟨rc, st2, gs2, ha, hg2, hS2⟩ := separated_add_pair fuel F st a b gs hg (by omega)
      hS hfree.1
    have hfree2 := hfree.2
    simp only [ha] at hfree2
    obtain ⟨st1, gs1, hr1, hg1, hS1⟩ := ih (done ++ [(a, b)]) st2 (F + 3) gs2 hg2 hS2
      (by omega) hfree2
    refine ⟨st1, gs1, ?_, hg1, by simpa using hS1⟩
    simp only [register_all, ha, hr1]

theorem last_match_of_mem (name : List Char) (gs : List (Nat × List (Nat × List Char)))
    (h : ∃ v ∈ visits gs, v.2.1 = name) :
    ∃ v ∈ visits gs, v.2.1 = name ∧ last_match name gs = (some v.1, some v.2.2) := by
  obtain ⟨v0, hv0, hn0⟩ := h
  unfold last_match
  cases hl : ((visits gs).filter (fun v => v.2.1 = name)).getLast? with
  | none =>
    simp only [List.getLast?_eq_none_iff, List.filter_eq_nil_iff, decide_eq_true_eq] at hl
    exact absurd hn0 (hl v0 hv0)
  | some v =>
    have hv := List.mem_of_getLast?_eq_some hl
    simp only [List.mem_filter, decide_eq_true_eq] at hv
    exact ⟨v, hv.1, hv.2, rfl⟩

theorem connected_same_entry {pairs : List (List Char × List Char)}
    {gs : List (Nat × List (Nat × List Char))} (hS : Separated pairs gs) (x y : List Char)
    (h : Connected pairs x y) :
    ∀ e, (∃ v ∈ visits gs, v.2.1 = x ∧ v.2.2 = e) ↔ (∃ w ∈ visits gs, w.2.1 = y ∧ w.2.2 = e) := by
  obtain ⟨_, hSep, hCov⟩ := hS
  induction h with
  | rel a b hab =>
    intro e
    obtain ⟨v0, hv0, w0, hw0, h1, h2, h3⟩ := hCov (a, b) hab
    simp only at h1 h2
    constructor
    · rintro ⟨v, hv, hn, he⟩
      have := hSep v hv v0 hv0 (by rw [hn, h1])
      exact ⟨w0, hw0, h2, by rw [← h3, ← this, he]⟩
    · rintro ⟨w, hw, hn, he⟩
      have := hSep w hw w0 hw0 (by rw [hn, h2])
      exact ⟨v0, hv0, h1, by rw [h3, ← this, he]⟩
  | refl a => intro e; exact Iff.rfl
  | symm a b _ ih => intro e; exact (ih e).symm
  | trans a b c _ _ ih1 ih2 => intro e; exact (ih1 e).trans (ih2 e)

/-- C19. Let no call of a sequence of register calls, run from the empty partition
with fuel at least three times the number of pairs, take the merge branch. Then
the sequence returns, and for all names x and y that occur in the registered
pairs `is_route(x, y)` returns RC_NO_ERROR on the state it leaves, with a result
that is 1 exactly when x and y are connected by a chain of registered
relations. -/
theorem exact_connectivity_without_merge (k : Nat)
    (pairs : List (List Char × List Char)) (x y : List Char)
    (hfree : merge_free (3 * pairs.length + k) State.empty pairs = true)
    (hx : ∃ p ∈ pairs, p.1 = x ∨ p.2 = x) (hy : ∃ p ∈ pairs, p.1 = y ∨ p.2 = y) :
    ∃ st r, register_all (3 * pairs.length + k) State.empty pairs = some st ∧
      is_route (3 * pairs.length + k) st x y = some (RC_NO_ERROR, some r) ∧
      (r = 1 ↔ Connected pairs x y) := by
  obtain ⟨st, gs, hrun, hg, hS⟩ := separated_register_all (3 * pairs.length + k) pairs []
    State.empty 0 [] (by simp [groups, State.empty]) separated_nil (by omega) hfree
  simp only [List.nil_append] at hS
  have hvis : ∀ z, (∃ p ∈ pairs, p.1 = z ∨ p.2 = z) → ∃ v ∈ visits gs, v.2.1 = z := by
    rintro z ⟨p, hp, hz⟩
    obtain ⟨v, hv, w, hw, h1, h2, _⟩ := hS.2.2 p hp
    rcases hz with hz | hz
    · exact ⟨v, hv, by rw [h1, hz]⟩
    · exact ⟨w, hw, by rw [h2, hz]⟩
  obtain ⟨vx, hvx, hnx, hlx⟩ := last_match_of_mem x gs (hvis x hx)
  obtain ⟨vy, hvy, hny, hly⟩ := last_match_of_mem y gs (hvis y hy)
  have hE := edges_of_register_all _ pairs st hrun
  have hval : is_route (3 * pairs.length + k) st x y =
      some (if vx.2.2 = vy.2.2 then (RC_NO_ERROR, some 1) else (RC_NO_ERROR, some 0)) := by
    rw [is_route_contract, find_node_eq_last_match, find_node_eq_last_match, hg]
    simp [hlx, hly]
  by_cases he : vx.2.2 = vy.2.2
  · have h1 : is_route (3 * pairs.length + k) st x y = some (RC_NO_ERROR, some 1) := by
      rw [hval, if_pos he]
    exact ⟨st, 1, hrun, h1, fun _ => route_one_connected _ st x y hE h1, fun _ => rfl⟩
  · refine ⟨st, 0, hrun, by rw [hval, if_neg he], ?_⟩
    constructor
    · intro h; exact absurd h (by decide)
    · intro hc
      exfalso
      obtain ⟨w, hw, hwn, hwe⟩ := (connected_same_entry hS x y hc vx.2.2).mp ⟨vx, hvx, hnx, rfl⟩
      exact he ((hS.2.1 w hw vy hvy (by rw [hwn, hny])) ▸ hwe.symm)

theorem exact_connectivity_without_merge_witness :
    merge_free
      (3 * [("A".toList, "B".toList), ("C".toList, "D".toList), ("E".toList, "B".toList),
        ("A".toList, "E".toList), ("A".toList, "A".toList)].length + 0) State.empty
      [("A".toList, "B".toList), ("C".toList, "D".toList), ("E".toList, "B".toList),
       ("A".toList, "E".toList), ("A".toList, "A".toList)] = true ∧
    ∃ st r,
      register_all
        (3 * [("A".toList, "B".toList), ("C".toList, "D".toList), ("E".toList, "B".toList),
          ("A".toList, "E".toList), ("A".toList, "A".toList)].length + 0) State.empty
        [("A".toList, "B".toList), ("C".toList, "D".toList), ("E".toList, "B".toList),
         ("A".toList, "E".toList), ("A".toList, "A".toList)] = some st ∧
      is_route
        (3 * [("A".toList, "B".toList), ("C".toList, "D".toList), ("E".toList, "B".toList),
          ("A".toList, "E".toList), ("A".toList, "A".toList)].length + 0) st
        "E".toList "D".toList = some (RC_NO_ERROR, some r) ∧
      (r = 1 ↔ Connected
        [("A".toList, "B".toList), ("C".toList, "D".toList), ("E".toList, "B".toList),
         ("A".toList, "E".toList), ("A".toList, "A".toList)] "E".toList "D".toList) :=
  ⟨by decide,
    exact_connectivity_without_merge 0 _ "E".toList "D".toList (by decide)
      ⟨("E".toList, "B".toList), by decide, Or.inl rfl⟩
      ⟨("C".toList, "D".toList), by decide, Or.inr rfl⟩⟩

end IsRoute
